import Mathlib

/-!
# spincl: command-line parsing and transfer orchestration

A shallow embedding of `spimain.c` (functions `comparse`, `main`, `showusage`)
together with the C library routines it calls, followed by theorems about the
embedded program.

Conventions of the embedding.

* A C string is the list of its characters before the terminating NUL; every
  `Char` stands for one byte with value `Char.toNat`. Whether plain `char` is
  signed is a parameter of the platform: it is unsigned in the ARM Linux ABI
  the program is written for.
* The pair `(argc, argv)` is the list `argv`, program name first; the running
  index `argnum` is replaced by the suffix of `argv` that starts at `argnum`.
* The file-scope variables, the two output streams and the record of calls
  into the bcm2835 library form an explicit `State`.
* A function returns `none` when the C program has no defined behaviour (a
  null pointer is dereferenced, an array is indexed outside its bounds, a
  shift count is negative).
* What a store past the end of `wbuf` does in a running program depends on
  where the build has placed the variables. The definitions whose names end in
  `Flat` follow such a store for the placement in the order of the
  declarations, where the variables declared after `wbuf` lie directly behind
  it; they agree with the others wherever those have a result.
-/

namespace Spincl

/-! ## Platform -/

/-- Data model of the C implementation. The program is sensitive to the width
of `long` and to the signedness of plain `char`; `int` is 32 bits throughout.
`ILP32` and `LP64` are the 32- and 64-bit ARM Linux ABIs, where plain `char`
is unsigned; `ILP32_signed` and `LP64_signed` are the same with plain `char`
signed, as under `-fsigned-char` or on another host. -/
inductive Platform where
  | ILP32
  | LP64
  | ILP32_signed
  | LP64_signed
  deriving DecidableEq

/-- Number of bits of `long` and `unsigned long`. -/
def Platform.longBits : Platform → Nat
  | .ILP32 => 32
  | .LP64 => 64
  | .ILP32_signed => 32
  | .LP64_signed => 64

/-- Whether plain `char` is a signed type. -/
def Platform.charSigned : Platform → Bool
  | .ILP32 => false
  | .LP64 => false
  | .ILP32_signed => true
  | .LP64_signed => true

/-- The value of a plain `char` that holds the byte `b`, as it is promoted to
`int`. -/
def charVal (p : Platform) (b : Nat) : Int :=
  if p.charSigned = true ∧ 128 ≤ b then (b : Int) - 256 else b

/-- The largest value of type `long`. -/
def LONG_MAX (p : Platform) : Int := 2 ^ (p.longBits - 1) - 1

/-- The smallest value of type `long`. -/
def LONG_MIN (p : Platform) : Int := -(2 ^ (p.longBits - 1))

/-- The largest value of type `unsigned long`. -/
def ULONG_MAX (p : Platform) : Nat := 2 ^ p.longBits - 1

/-! ## C library -/

/-- A C string, without its terminating NUL. -/
abbrev CStr := List Char

/-- The NUL character that terminates every C string. -/
def NUL : Char := Char.ofNat 0

/-- The character `s[i]`; at `i = strlen s` this is the terminator. -/
def charAt (s : CStr) (i : Nat) : Char := s.getD i NUL

/-- Conversion of an `int` value to `uint8_t`. -/
def toUInt8 (z : Int) : Nat := (z % 256).toNat

/-- Conversion of an `int` value to `uint16_t`. -/
def toUInt16 (z : Int) : Nat := (z % 65536).toNat

/-- Conversion of an `int` value to `uint32_t`. -/
def toUInt32 (z : Int) : Nat := (z % 4294967296).toNat

/-- Conversion of a `long` value to `int` (the value is reduced modulo 2^32
into the range of `int`). -/
def toInt32 (z : Int) : Int := (z + 2147483648) % 4294967296 - 2147483648

/-- The function `strlen`. -/
def strlen (s : CStr) : Nat := s.length

/-- The function `strspn`: length of the longest prefix of `s` made of
characters of `accept`. -/
def strspn (s : CStr) (accept : CStr) : Nat :=
  (s.takeWhile (fun c => decide (c ∈ accept))).length

/-- The function `isspace` in the C locale. -/
def isspace (c : Char) : Bool :=
  c.toNat = 32 || (9 ≤ c.toNat && c.toNat ≤ 13)

/-- Value of a character as a digit (letters count from ten, in either
case); 255 for a character that is a digit in no base. -/
def digitVal (c : Char) : Nat :=
  let n := c.toNat
  if 48 ≤ n ∧ n ≤ 57 then n - 48
  else if 97 ≤ n ∧ n ≤ 122 then n - 97 + 10
  else if 65 ≤ n ∧ n ≤ 90 then n - 65 + 10
  else 255

/-- The digit loop of `strtol` and `strtoul`: accumulates the digits of the
given base at the front of the string and stops at the first other
character. The accumulated value is the exact one; the callers saturate. -/
def parseDigits (base : Nat) : CStr → Nat → Nat
  | [], acc => acc
  | c :: cs, acc =>
    if digitVal c < base then parseDigits base cs (acc * base + digitVal c) else acc

/-- Leading white space is skipped by the conversion functions. -/
def skipSpace (s : CStr) : CStr := s.dropWhile isspace

/-- An optional sign in front of the digits: whether the value is negated,
and the rest of the string. -/
def takeSign : CStr → Bool × CStr
  | c :: cs => if c = '-' then (true, cs) else if c = '+' then (false, cs) else (false, c :: cs)
  | [] => (false, [])

/-- The call `strtol(s, NULL, 10)`: the value is clamped to the range of
`long`. -/
def strtol10 (p : Platform) (s : CStr) : Int :=
  let (neg, ds) := takeSign (skipSpace s)
  let m : Int := (parseDigits 10 ds 0 : Nat)
  if neg then max (-m) (LONG_MIN p) else min m (LONG_MAX p)

/-- The function `atoi`, as the C library defines it: `(int) strtol(s, NULL, 10)`. -/
def atoi (p : Platform) (s : CStr) : Int := toInt32 (strtol10 p s)

/-- The call `strtoul(s, NULL, 0)`: the base is taken from the front of the
string (`0x` or `0X` sixteen, a leading `0` eight, ten otherwise); a value
that does not fit is replaced by `ULONG_MAX`, a negated one is reduced
modulo `ULONG_MAX + 1`. -/
def strtoul0 (p : Platform) (s : CStr) : Nat :=
  let (neg, ds) := takeSign (skipSpace s)
  let m : Nat :=
    match ds with
    | c0 :: c1 :: rest =>
      if c0 = '0' ∧ (c1 = 'x' ∨ c1 = 'X') then parseDigits 16 rest 0
      else if c0 = '0' then parseDigits 8 ds 0
      else parseDigits 10 ds 0
    | _ => if charAt ds 0 = '0' then parseDigits 8 ds 0 else parseDigits 10 ds 0
  if ULONG_MAX p < m then ULONG_MAX p
  else if neg then (ULONG_MAX p + 1 - m) % (ULONG_MAX p + 1) else m

/-- The value `EXIT_SUCCESS` of `stdlib.h`. -/
def EXIT_SUCCESS : Int := 0

/-- The value `EXIT_FAILURE` of `stdlib.h`. -/
def EXIT_FAILURE : Int := 1

/-! ## Constants of `bcm2835.h` and of `spimain.c` -/

/-- Pin level `LOW` of `bcm2835.h`. -/
def LOW : Nat := 0

/-- Pin level `HIGH` of `bcm2835.h`. -/
def HIGH : Nat := 1

/-- SPI mode 0 (`CPOL = 0, CPHA = 0`) of `bcm2835.h`. -/
def BCM2835_SPI_MODE0 : Nat := 0

/-- The divider 65536 of `bcm2835.h`, which the register encodes as 0. -/
def BCM2835_SPI_CLOCK_DIVIDER_65536 : Nat := 0

/-- Chip select 0 of `bcm2835.h`. -/
def BCM2835_SPI_CS0 : Nat := 0

/-- Capacity of the two transfer buffers. -/
def MAX_LEN : Nat := 32

/-- The enumeration `spi_init`. -/
inductive spi_init where
  | NO_ACTION
  | SPI_BEGIN
  | SPI_END
  deriving DecidableEq

/-- A call into the bcm2835 library, with its arguments. For a transfer these
are the contents of the two buffers at the time of the call and the byte
count. -/
inductive DriverCall where
  | bcm2835_init
  | bcm2835_spi_begin
  | bcm2835_spi_end
  | bcm2835_spi_setDataMode (mode : Nat)
  | bcm2835_spi_setClockDivider (divider : Nat)
  | bcm2835_spi_chipSelect (cs : Nat)
  | bcm2835_spi_setChipSelectPolarity (cs : Nat) (active : Nat)
  | bcm2835_spi_transfernb (tbuf : List Nat) (rbuf : List Nat) (len : Nat)
  | bcm2835_close
  deriving DecidableEq

/-- The file-scope variables of `spimain.c`, the text written so far to the
standard error and standard output streams, and the calls made so far into the
bcm2835 library, oldest first. -/
structure State where
  rbuf : List Nat
  wbuf : List Nat
  len : Nat
  init : spi_init
  mode : Nat
  clk_div : Nat
  cs : Nat
  polarity : Nat
  stderr : String
  stdout : String
  calls : List DriverCall
  deriving DecidableEq

/-- The state at program start: the initialisers of the file-scope variables
(the buffers are zero-initialised), nothing written, nothing called. -/
def State.start : State where
  rbuf := List.replicate MAX_LEN 0
  wbuf := List.replicate MAX_LEN 0
  len := 0
  init := .NO_ACTION
  mode := BCM2835_SPI_MODE0
  clk_div := BCM2835_SPI_CLOCK_DIVIDER_65536
  cs := BCM2835_SPI_CS0
  polarity := LOW
  stderr := ""
  stdout := ""
  calls := []

/-- The call `fprintf(stderr, msg)`. -/
def State.eprint (s : State) (msg : String) : State :=
  { s with stderr := s.stderr ++ msg }

/-- The call `printf(msg)`. -/
def State.print (s : State) (msg : String) : State :=
  { s with stdout := s.stdout ++ msg }

/-- Records a call into the bcm2835 library. -/
def State.call (s : State) (c : DriverCall) : State :=
  { s with calls := s.calls ++ [c] }

/-! ## `comparse` -/

/-- What one pass through the body of the option loop does: go on with the
next argument, return from `comparse`, or leave defined behaviour. -/
inductive Flow where
  | next (s : State)
  | ret (code : Int) (s : State)
  | undefined

/-- The `switch` on `argv[argnum][1]` in the option loop of `comparse`, for the
argument `arg = argv[argnum]`. -/
def flagStep (p : Platform) (arg : CStr) (s : State) : Flow :=
  let c1 := charAt arg 1
  let c2 := charAt arg 2
  if c1 = 'i' then
    if c2 = 'b' then .next { s with init := .SPI_BEGIN }
    else if c2 = 'e' then .next { s with init := .SPI_END }
    else .ret EXIT_FAILURE (s.eprint (String.singleton c2 ++ " is not a valid init option\n"))
  else if c1 = 'm' then
    let s := { s with mode := toUInt8 ((c2.toNat : Int) - 0x30) }
    if s.mode > 3 then .ret EXIT_FAILURE (s.eprint "Invalid mode\n")
    else .next s
  else if c1 = 'c' then
    let i := atoi p (arg.drop 2)
    if charVal p c2.toNat < (('0').toNat : Int) ∨ i > 15 then
      .ret EXIT_FAILURE (s.eprint "Invalid clock divider exponent\n")
    else if i < 0 then .undefined
    else .next { s with clk_div := toUInt16 (1 <<< i.toNat : Nat) }
  else if c1 = 's' then
    let s := { s with cs := toUInt8 ((c2.toNat : Int) - 0x30) }
    if s.cs > 3 then .ret EXIT_FAILURE (s.eprint "Invalid chip select\n")
    else .next s
  else if c1 = 'p' then
    let s := { s with polarity := toUInt8 ((c2.toNat : Int) - 0x30) }
    if s.polarity > 1 then .ret EXIT_FAILURE (s.eprint "Invalid chip select polarity\n")
    else .next s
  else .ret EXIT_FAILURE (s.eprint (String.singleton c1 ++ " is not a valid option\n"))

/-- The loop over the transmit bytes at the end of `comparse`: `toks` are the
arguments `argv[argnum + i], ...` still to be read and `i` the loop counter.
A store to `wbuf[i]` with `i` outside the array is not defined. -/
def xmitLoop (p : Platform) : List CStr → Nat → State → Option (Int × State)
  | [], _, s => some (EXIT_SUCCESS, s)
  | tok :: rest, i, s =>
    if strspn tok "0123456789abcdefABCDEFxX".toList ≠ strlen tok then
      some (EXIT_FAILURE, s.eprint "Invalid data\n")
    else if i < MAX_LEN then
      xmitLoop p rest (i + 1) { s with wbuf := s.wbuf.set i (toUInt8 (strtoul0 p tok)) }
    else none

/-- The part of `comparse` after the option loop, `rest` being the arguments
from `argv[argnum]` on. With no argument left `argv[argnum]` is the null
pointer that ends `argv`, and `strspn` dereferences it. -/
def parseTail (p : Platform) (rest : List CStr) (s : State) : Option (Int × State) :=
  if rest = [] ∧ s.init ≠ .NO_ACTION then some (EXIT_SUCCESS, s)
  else
    match rest with
    | [] => none
    | lenArg :: toks =>
      if strspn lenArg "0123456789".toList ≠ strlen lenArg then
        some (EXIT_FAILURE, s.eprint "Invalid number of bytes specified\n")
      else
        let s := { s with len := toUInt32 (atoi p lenArg) }
        if s.len > MAX_LEN then
          some (EXIT_FAILURE, s.eprint "Invalid number of bytes specified\n")
        else
          xmitLoop p toks 0 { s with wbuf := List.replicate MAX_LEN 0 }

/-- The option loop of `comparse`, `rest` being the arguments from
`argv[argnum]` on, followed by the rest of the function. -/
def flagLoop (p : Platform) : List CStr → State → Option (Int × State)
  | [], s => parseTail p [] s
  | arg :: rest, s =>
    if charAt arg 0 = '-' then
      match flagStep p arg s with
      | .next s1 => flagLoop p rest s1
      | .ret code s1 => some (code, s1)
      | .undefined => none
    else parseTail p (arg :: rest) s

/-- The function `comparse`: the exit code it returns and the state it
leaves. -/
def comparse (p : Platform) (argv : List CStr) (s : State) : Option (Int × State) :=
  if argv.length < 2 then
    some (EXIT_FAILURE, s.eprint "Insufficient command line arguments\n")
  else flagLoop p (argv.drop 1) s

/-! ## `showusage` and `main` -/

/-- What lies outside the program: the C data model, the `VERSION` macro the
build supplies, whether `bcm2835_init` succeeds, and the byte the device
returns at each position of a transfer. -/
structure World where
  plat : Platform
  version : String
  initOk : Bool
  miso : Nat → Nat

/-- The text of the `printf` calls of `showusage`, in order. -/
def usageText (version : String) : List String :=
  [ "spincl v" ++ version ++ "\n",
    "Usage: \n",
    "  spincl [options] len [xmit bytes]\n",
    "\n",
    "  Invoking spincl results in a full-duplex SPI transfer of a specified\n",
    "    number of bytes.  Additionally, it can be used to set the appropriate\n",
    "    GPIO pins to their respective SPI configurations or return them\n",
    "    to GPIO input configuration.  Options include the SPI clock frequency,\n",
    "    SPI Mode, chip select designation, chip select polarity and an\n",
    "    initialization option (spi_begin and spi_end).  spincl must be invoked\n",
    "    with root privileges.\n",
    "\n",
    "  The following are the options, which must be a single letter\n",
    "    preceded by a '-' and followed by another character.\n",
    "    -ix where x is the SPI init option, b[egin] or e[nd]\n",
    "      The begin option must be executed before any transfer can happen.\n",
    "        It may be included with a transfer.\n",
    "      The end option will return the SPI pins to GPIO inputs.\n",
    "        It may be included with a transfer.\n",
    "    -mx where x is the SPI mode, 0, 1, 2, or 3\n",
    "    -cx where x is the exponent of 2 of the clock divider. Allowed values\n",
    "      are 0 through 15.  Valid clock divider values are powers of 2.\n",
    "      Corresponding frequencies are specified in bcm2835.h.\n",
    "    -sx where x is 0 (CS0), 1 (CS1), 2 (CS1&CS2), or 3 (None)\n",
    "    -px where x is chip select polarity, 0(LOW) or 1(HIGH)\n",
    "\n",
    "  len: The number of bytes to be transmitted and received (full duplex).\n",
    "    The maximum number of bytes allowed is " ++ Nat.repr MAX_LEN ++ "\n",
    "\n",
    "  xmit bytes: The bytes to be transmitted if specified.  If none are\n",
    "    specified, 0s will be transmitted, which may be the case when only\n",
    "    the received data is relevant.\n",
    "\n",
    "\n" ]

/-- The function `showusage`: prints the usage statement and returns
`errcode`. -/
def showusage (version : String) (errcode : Int) (s : State) : Int × State :=
  (errcode, (usageText version).foldl State.print s)

/-- The conversion `%02x` of `printf`, for the argument converted to
`unsigned int`: lower-case hexadecimal, padded with zeros to two digits. -/
def fmt02x (n : Nat) : String :=
  let ds := Nat.toDigits 16 n
  String.mk (List.replicate (2 - ds.length) '0' ++ ds)

/-- The call `bcm2835_spi_transfernb(wbuf, rbuf, len)`: the library reads
`len` bytes of `wbuf` and writes the `len` bytes received to the front of
`rbuf`; with `len` beyond the capacity of the buffers these accesses are not
defined. -/
def transfernb (w : World) (s : State) : Option State :=
  if s.len ≤ MAX_LEN then
    let s := s.call (.bcm2835_spi_transfernb s.wbuf s.rbuf s.len)
    some { s with rbuf := (List.range s.len).map (fun i => w.miso i % 256) ++ s.rbuf.drop s.len }
  else none

/-- The loop of `main` that prints the received data: `n` iterations are
left and `i` is the loop counter. The `char` read from `rbuf[i]` is promoted
to `int` and printed by `%02x` as an `unsigned int`. Reading `rbuf[i]`
outside the array is not defined. -/
def printLoop (p : Platform) : Nat → Nat → State → Option State
  | 0, _, s => some s
  | n + 1, i, s =>
    match s.rbuf.get? i with
    | some b =>
      printLoop p n (i + 1) (s.print ("0x" ++ fmt02x (toUInt32 (charVal p b)) ++ " "))
    | none => none

/-- The function `main`: the exit status of the program and the state it
leaves. -/
def main (w : World) (argv : List CStr) : Option (Int × State) :=
  match comparse w.plat argv State.start with
  | none => none
  | some (code, s) =>
    if code = EXIT_FAILURE then some (showusage w.version EXIT_FAILURE s)
    else
      let s := s.call .bcm2835_init
      if !w.initOk then some (EXIT_FAILURE, s)
      else
        let s := if s.init = .SPI_BEGIN then s.call .bcm2835_spi_begin else s
        if s.len = 0 then
          let s := if s.init = .SPI_END then s.call .bcm2835_spi_end else s
          some (EXIT_SUCCESS, s)
        else
          let s := s.call (.bcm2835_spi_setDataMode s.mode)
          let s := s.call (.bcm2835_spi_setClockDivider s.clk_div)
          let s := s.call (.bcm2835_spi_chipSelect s.cs)
          let s := s.call (.bcm2835_spi_setChipSelectPolarity s.cs s.polarity)
          let s := { s with rbuf := List.replicate MAX_LEN 0 }
          match transfernb w s with
          | none => none
          | some s =>
            let s := if s.init = .SPI_END then s.call .bcm2835_spi_end else s
            let s := s.call .bcm2835_close
            match printLoop w.plat s.len 0 s with
            | none => none
            | some s => some (EXIT_SUCCESS, s.print "\n")

/-! ## The variables declared after `wbuf` -/

/-- The unsigned integer `x` with its byte `k` replaced by `v`, byte 0 being
the lowest. -/
def setByte (x k v : Nat) : Nat :=
  x % 256 ^ k + v * 256 ^ k + x / 256 ^ (k + 1) * 256 ^ (k + 1)

/-- The enumerator of `spi_init` that has the value `v`. -/
def spi_init.ofByte : Nat → Option spi_init
  | 0 => some .NO_ACTION
  | 1 => some .SPI_BEGIN
  | 2 => some .SPI_END
  | _ => none

/-- The store `wbuf[i] = v` where the file-scope variables lie in memory in
the order of their declarations, without gaps and low byte first: the 32
bytes of `wbuf` are followed by the four bytes of `len`, by `init`, by
`mode`, by the two bytes of `clk_div`, by `cs` and by `polarity`. With `i`
from 32 to 41 the byte goes into the variable that lies there. No result is
given for a store behind `polarity`, the last variable the program declares,
nor for a store into `init` of a byte that is the value of no enumerator. -/
def storeFlat (i v : Nat) (s : State) : Option State :=
  if i < MAX_LEN then some { s with wbuf := s.wbuf.set i v }
  else if i < MAX_LEN + 4 then some { s with len := setByte s.len (i - MAX_LEN) v }
  else if i = MAX_LEN + 4 then (spi_init.ofByte v).map (fun x => { s with init := x })
  else if i = MAX_LEN + 5 then some { s with mode := v }
  else if i < MAX_LEN + 8 then
    some { s with clk_div := setByte s.clk_div (i - (MAX_LEN + 6)) v }
  else if i = MAX_LEN + 8 then some { s with cs := v }
  else if i = MAX_LEN + 9 then some { s with polarity := v }
  else none

/-- The loop over the transmit bytes as `xmitLoop`, with the store to
`wbuf[i]` carried out by `storeFlat`. -/
def xmitLoopFlat (p : Platform) : List CStr → Nat → State → Option (Int × State)
  | [], _, s => some (EXIT_SUCCESS, s)
  | tok :: rest, i, s =>
    if strspn tok "0123456789abcdefABCDEFxX".toList ≠ strlen tok then
      some (EXIT_FAILURE, s.eprint "Invalid data\n")
    else
      match storeFlat i (toUInt8 (strtoul0 p tok)) s with
      | some s1 => xmitLoopFlat p rest (i + 1) s1
      | none => none

/-- The part of `comparse` after the option loop as `parseTail`, with
`xmitLoopFlat` for the loop over the transmit bytes. -/
def parseTailFlat (p : Platform) (rest : List CStr) (s : State) : Option (Int × State) :=
  if rest = [] ∧ s.init ≠ .NO_ACTION then some (EXIT_SUCCESS, s)
  else
    match rest with
    | [] => none
    | lenArg :: toks =>
      if strspn lenArg "0123456789".toList ≠ strlen lenArg then
        some (EXIT_FAILURE, s.eprint "Invalid number of bytes specified\n")
      else
        let s := { s with len := toUInt32 (atoi p lenArg) }
        if s.len > MAX_LEN then
          some (EXIT_FAILURE, s.eprint "Invalid number of bytes specified\n")
        else
          xmitLoopFlat p toks 0 { s with wbuf := List.replicate MAX_LEN 0 }

/-- The option loop of `comparse` as `flagLoop`, followed by `parseTailFlat`. -/
def flagLoopFlat (p : Platform) : List CStr → State → Option (Int × State)
  | [], s => parseTailFlat p [] s
  | arg :: rest, s =>
    if charAt arg 0 = '-' then
      match flagStep p arg s with
      | .next s1 => flagLoopFlat p rest s1
      | .ret code s1 => some (code, s1)
      | .undefined => none
    else parseTailFlat p (arg :: rest) s

/-- The function `comparse` where the variables lie in memory in the order of
their declarations: as `comparse`, but a store past the end of `wbuf` goes
into the variables behind it. -/
def comparseFlat (p : Platform) (argv : List CStr) (s : State) : Option (Int × State) :=
  if argv.length < 2 then
    some (EXIT_FAILURE, s.eprint "Insufficient command line arguments\n")
  else flagLoopFlat p (argv.drop 1) s

/-! ## Vocabulary of the specification -/

/-- A string of decimal digits. -/
def isDecimal (s : CStr) : Prop := ∀ c ∈ s, c ∈ "0123456789".toList

/-- The number a string of decimal digits denotes. -/
def decVal (s : CStr) : Nat := s.foldl (fun a c => 10 * a + (c.toNat - 48)) 0

/-- An option of the command line. For the clock divider the digits of the
exponent are kept as written, so that `-c7` and `-c07` are both covered. -/
inductive Flag where
  | ib
  | ie
  | m (d : Nat)
  | c (ds : CStr)
  | s (d : Nat)
  | p (d : Nat)

/-- The letter of an option. -/
def Flag.letter : Flag → Char
  | .ib => 'i'
  | .ie => 'i'
  | .m _ => 'm'
  | .c _ => 'c'
  | .s _ => 's'
  | .p _ => 'p'

/-- The values the usage statement allows for each option. -/
def Flag.valid : Flag → Prop
  | .ib => True
  | .ie => True
  | .m d => d ≤ 3
  | .c ds => ds ≠ [] ∧ isDecimal ds ∧ decVal ds ≤ 15
  | .s d => d ≤ 3
  | .p d => d ≤ 1

/-- The command-line argument that carries an option. -/
def Flag.render : Flag → CStr
  | .ib => ['-', 'i', 'b']
  | .ie => ['-', 'i', 'e']
  | .m d => ['-', 'm', Char.ofNat (48 + d)]
  | .c ds => '-' :: 'c' :: ds
  | .s d => ['-', 's', Char.ofNat (48 + d)]
  | .p d => ['-', 'p', Char.ofNat (48 + d)]

/-- The request field an option stands for, set to the option's value. -/
def Flag.apply (s : State) : Flag → State
  | .ib => { s with init := .SPI_BEGIN }
  | .ie => { s with init := .SPI_END }
  | .m d => { s with mode := d }
  | .c ds => { s with clk_div := 2 ^ decVal ds }
  | .s d => { s with cs := d }
  | .p d => { s with polarity := d }

/-- A transmit token as `comparse` checks it: every character is one of
those of a numeric literal. -/
def isDataToken (s : CStr) : Prop := ∀ c ∈ s, c ∈ "0123456789abcdefABCDEFxX".toList

/-- A string of octal digits. -/
def isOctal (s : CStr) : Prop := ∀ c ∈ s, c ∈ "01234567".toList

/-- A string of hexadecimal digits, in either case. -/
def isHex (s : CStr) : Prop := ∀ c ∈ s, c ∈ "0123456789abcdefABCDEF".toList

instance : DecidablePred isDecimal := fun s =>
  inferInstanceAs (Decidable (∀ c ∈ s, c ∈ "0123456789".toList))

instance : DecidablePred isOctal := fun s =>
  inferInstanceAs (Decidable (∀ c ∈ s, c ∈ "01234567".toList))

instance : DecidablePred isHex := fun s =>
  inferInstanceAs (Decidable (∀ c ∈ s, c ∈ "0123456789abcdefABCDEF".toList))

/-- The number a string of octal digits denotes. -/
def octVal (s : CStr) : Nat := s.foldl (fun a c => 8 * a + (c.toNat - 48)) 0

/-- The value of a hexadecimal digit: `0`..`9` are 0..9, `A`..`F` and
`a`..`f` are 10..15. -/
def hexDigit (c : Char) : Nat :=
  if c.toNat ≤ 57 then c.toNat - 48
  else if c.toNat ≤ 70 then c.toNat - 55
  else c.toNat - 87

/-- The number a string of hexadecimal digits denotes. -/
def hexVal (s : CStr) : Nat := s.foldl (fun a c => 16 * a + hexDigit c) 0

/-- The value of a well-formed numeric literal, `none` for any other string:
`0x` or `0X` followed by one or more hexadecimal digits is hexadecimal, `0`
followed by octal digits is octal, a string of decimal digits that does not
begin with `0` is decimal. -/
def litValue (s : CStr) : Option Nat :=
  match s with
  | [] => none
  | c0 :: rest =>
    if c0 = '0' then
      match rest with
      | [] => some 0
      | c1 :: ds =>
        if c1 = 'x' ∨ c1 = 'X' then
          if ds ≠ [] ∧ isHex ds then some (hexVal ds) else none
        else if isOctal rest then some (octVal rest) else none
    else if c0 ∈ "123456789".toList ∧ isDecimal rest then some (decVal s) else none

/-- The init action an option asks for, for `-ib` and `-ie`. -/
def Flag.initOf : Flag → Option spi_init
  | .ib => some .SPI_BEGIN
  | .ie => some .SPI_END
  | _ => none

/-- The mode an option gives, for `-m`. -/
def Flag.modeOf : Flag → Option Nat
  | .m d => some d
  | _ => none

/-- The clock divider an option gives, for `-c`. -/
def Flag.clkOf : Flag → Option Nat
  | .c ds => some (2 ^ decVal ds)
  | _ => none

/-- The chip select an option gives, for `-s`. -/
def Flag.csOf : Flag → Option Nat
  | .s d => some d
  | _ => none

/-- The chip select polarity an option gives, for `-p`. -/
def Flag.polarityOf : Flag → Option Nat
  | .p d => some d
  | _ => none

/-- The value of a request field after a list of options: the value given by
the last option of the list that carries the field, `dflt` when none does. -/
def lastOf {α : Type} (sel : Flag → Option α) (dflt : α) (flags : List Flag) : α :=
  (flags.reverse.findSome? sel).getD dflt

/-- The lower-case hexadecimal digit for a value below sixteen. -/
def hexDigitChar (d : Nat) : Char := "0123456789abcdef".toList.getD d '0'

/-- A byte written as `0x` and two lower-case hexadecimal digits. -/
def byteText (b : Nat) : CStr := ['0', 'x', hexDigitChar (b / 16), hexDigitChar (b % 16)]

/-- A report in which the bytes are separated by single spaces and a newline
ends the text. -/
def reportSeparated (r : List Nat) : CStr :=
  List.intercalate [' '] (r.map byteText) ++ [Char.ofNat 10]

/-- A report in which every byte is followed by a space and a newline ends
the text. -/
def reportText (r : List Nat) : CStr :=
  (r.map (fun b => byteText b ++ [' '])).flatten ++ [Char.ofNat 10]

/-- Splitting at white space, `cur` being the token read so far; empty tokens
are dropped. -/
def wordsAux : CStr → CStr → List CStr
  | [], cur => if cur.isEmpty then [] else [cur]
  | c :: cs, cur =>
    if isspace c then (if cur.isEmpty then wordsAux cs [] else cur :: wordsAux cs [])
    else wordsAux cs (cur ++ [c])

/-- The white-space separated tokens of a text. -/
def words (s : CStr) : List CStr := wordsAux s []

/-- The value of the longest prefix of a token that is a well-formed numeric
literal, 0 when no prefix is one. -/
def prefixValue (s : CStr) : Nat :=
  ((List.range (s.length + 1)).reverse.findSome? (fun k => litValue (s.take k))).getD 0

/-! ## The C library on decimal strings -/

theorem charVal_small (p : Platform) (b : Nat) (h : b < 128) : charVal p b = b := by
  unfold charVal
  rw [if_neg]
  intro h2
  have := h2.2
  omega

theorem digit_facts {c : Char} (h : c ∈ "0123456789".toList) :
    digitVal c = c.toNat - 48 ∧ digitVal c < 10 ∧ isspace c = false ∧ c ≠ '-' ∧ c ≠ '+'
      ∧ 48 ≤ c.toNat ∧ c.toNat ≤ 57 := by
  have h2 : c = '0' ∨ c = '1' ∨ c = '2' ∨ c = '3' ∨ c = '4' ∨ c = '5' ∨ c = '6' ∨ c = '7'
      ∨ c = '8' ∨ c = '9' := by simpa using h
  rcases h2 with h | h | h | h | h | h | h | h | h | h <;> subst h <;> decide

theorem strspn_of_all {s accept : CStr} (h : ∀ c ∈ s, c ∈ accept) :
    strspn s accept = strlen s := by
  unfold strspn strlen
  rw [List.takeWhile_eq_self_iff.mpr]
  intro c hc
  simpa using h c hc

theorem strspn_of_bad {s accept : CStr} {c : Char} (hc : c ∈ s) (hbad : c ∉ accept) :
    strspn s accept ≠ strlen s := by
  unfold strspn strlen
  intro h
  have := List.takeWhile_eq_self_iff.mp
    ((List.takeWhile_sublist _).eq_of_length h) c hc
  simp at this
  exact hbad this

theorem parseDigits_dec (s : CStr) (h : isDecimal s) (acc : Nat) :
    parseDigits 10 s acc = s.foldl (fun a c => 10 * a + (c.toNat - 48)) acc := by
  induction s generalizing acc with
  | nil => rfl
  | cons c cs ih =>
    have hc := digit_facts (h c (List.mem_cons_self _ _))
    have hcs : isDecimal cs := fun d hd => h d (List.mem_cons_of_mem _ hd)
    simp only [parseDigits, hc.2.1, if_true, List.foldl_cons]
    rw [ih hcs, hc.1, Nat.mul_comm]

theorem strtol10_dec (p : Platform) (s : CStr) (h : isDecimal s) :
    strtol10 p s = min (decVal s : Int) (LONG_MAX p) := by
  cases s with
  | nil => simp [strtol10, skipSpace, takeSign, parseDigits, decVal]
  | cons c cs =>
    have hc := digit_facts (h c (List.mem_cons_self _ _))
    have h1 : skipSpace (c :: cs) = c :: cs := by
      simp [skipSpace, List.dropWhile, hc.2.2.1]
    have h2 : takeSign (c :: cs) = (false, c :: cs) := by
      simp [takeSign, hc.2.2.2.1, hc.2.2.2.2.1]
    simp only [strtol10, h1, h2, parseDigits_dec _ h, decVal]
    simp

theorem atoi_dec (p : Platform) (s : CStr) (h : isDecimal s) (hv : decVal s < 2147483648) :
    atoi p s = decVal s := by
  rw [atoi, strtol10_dec p s h]
  have : min (decVal s : Int) (LONG_MAX p) = decVal s := by
    cases p <;> simp [LONG_MAX, Platform.longBits] <;> omega
  rw [this]; unfold toInt32; omega

/-! ## The option loop -/

theorem shift_u16 (n : Nat) (h : n ≤ 15) : toUInt16 ((1 <<< n : Nat) : Int) = 2 ^ n := by
  interval_cases n <;> rfl

theorem flagStep_render (p : Platform) (f : Flag) (hf : f.valid) (s : State) :
    flagStep p f.render s = .next (f.apply s) := by
  cases f with
  | ib => rfl
  | ie => rfl
  | m d =>
    have hd : d ≤ 3 := hf
    interval_cases d <;> rfl
  | s d =>
    have hd : d ≤ 3 := hf
    interval_cases d <;> rfl
  | p d =>
    have hd : d ≤ 1 := hf
    interval_cases d <;> rfl
  | c ds =>
    obtain ⟨hne, hdec, hval⟩ := hf
    cases ds with
    | nil => exact absurd rfl hne
    | cons d ds =>
      have hd := digit_facts (hdec d (List.mem_cons_self _ _))
      have ha : atoi p (d :: ds) = decVal (d :: ds) := atoi_dec p _ hdec (by omega)
      have h1 : charAt ('-' :: 'c' :: d :: ds) 1 = 'c' := rfl
      have h2 : charAt ('-' :: 'c' :: d :: ds) 2 = d := rfl
      have h3 : List.drop 2 ('-' :: 'c' :: d :: ds) = d :: ds := rfl
      have h4 : ¬ (charVal p d.toNat < (('0').toNat : Int)) := by
        have h48 : ('0').toNat = 48 := rfl
        rw [charVal_small p _ (by omega), h48]
        omega
      have h5 : ¬ ((decVal (d :: ds) : Int) > 15) := by omega
      have h6 : ¬ ((decVal (d :: ds) : Int) < 0) := by omega
      simp only [flagStep, Flag.render, Flag.apply, h1, h2, h3, ha, h4, h5, h6, false_or,
        if_false, Int.toNat_ofNat, shift_u16 _ hval]
      simp

theorem render_dash (f : Flag) : charAt f.render 0 = '-' := by
  cases f <;> rfl

theorem flagLoop_render (p : Platform) (flags : List Flag) (hv : ∀ f ∈ flags, f.valid)
    (rest : List CStr) (s : State) :
    flagLoop p (flags.map Flag.render ++ rest) s
      = flagLoop p rest (flags.foldl Flag.apply s) := by
  induction flags generalizing s with
  | nil => rfl
  | cons f fs ih =>
    have hf : f.valid := hv f (List.mem_cons_self _ _)
    have hfs : ∀ g ∈ fs, g.valid := fun g hg => hv g (List.mem_cons_of_mem _ hg)
    simp only [List.map_cons, List.cons_append, flagLoop, render_dash, if_true,
      flagStep_render p f hf, List.foldl_cons]
    exact ih hfs _

theorem foldl_apply_fields (flags : List Flag) (hnd : (flags.map Flag.letter).Nodup)
    (s : State) :
    let t := flags.foldl Flag.apply s
    (Flag.ib ∈ flags → t.init = .SPI_BEGIN) ∧ (Flag.ie ∈ flags → t.init = .SPI_END)
      ∧ (Flag.ib ∉ flags → Flag.ie ∉ flags → t.init = s.init)
      ∧ (∀ d, Flag.m d ∈ flags → t.mode = d) ∧ ((∀ d, Flag.m d ∉ flags) → t.mode = s.mode)
      ∧ (∀ ds, Flag.c ds ∈ flags → t.clk_div = 2 ^ decVal ds)
      ∧ ((∀ ds, Flag.c ds ∉ flags) → t.clk_div = s.clk_div)
      ∧ (∀ d, Flag.s d ∈ flags → t.cs = d) ∧ ((∀ d, Flag.s d ∉ flags) → t.cs = s.cs)
      ∧ (∀ d, Flag.p d ∈ flags → t.polarity = d)
      ∧ ((∀ d, Flag.p d ∉ flags) → t.polarity = s.polarity)
      ∧ t.len = s.len ∧ t.wbuf = s.wbuf ∧ t.rbuf = s.rbuf ∧ t.stderr = s.stderr
      ∧ t.stdout = s.stdout ∧ t.calls = s.calls := by
  induction flags using List.reverseRecOn with
  | nil => simp
  | append_singleton fs f ih =>
    rw [List.map_append, List.nodup_append] at hnd
    obtain ⟨hfs, -, hdisj⟩ := hnd
    have ih := ih hfs
    have hnot : ∀ g ∈ fs, g.letter ≠ f.letter := by
      intro g hg heq
      exact hdisj (List.mem_map_of_mem _ hg) (by simp [heq])
    simp only [List.foldl_append, List.foldl_cons, List.foldl_nil, List.mem_append,
      List.mem_singleton] at ih ⊢
    obtain ⟨i1, i2, i3, m1, m2, c1, c2, s1, s2, p1, p2, r1, r2, r3, r4, r5, r6⟩ := ih
    clear ih
    cases f <;> simp [Flag.apply] <;> (repeat' apply And.intro) <;> (try assumption) <;>
      (try (intro h; exact hnot _ h rfl))
    all_goals first
      | (intro d h
         rcases h with h | h
         · exact (hnot _ h rfl).elim
         · rw [h])
      | (intro h; exact ((h _).2 rfl).elim)

theorem decimal_no_dash (ds : CStr) (h : isDecimal ds) : charAt ds 0 ≠ '-' := by
  cases ds with
  | nil => decide
  | cons c cs => exact (digit_facts (h c (List.mem_cons_self _ _))).2.2.2.1

theorem toUInt32_small (n : Nat) (h : n < 4294967296) : toUInt32 (n : Int) = n := by
  unfold toUInt32; omega

theorem parseTail_len (p : Platform) (ds : CStr) (hds : isDecimal ds) (hlen : decVal ds ≤ 32)
    (toks : List CStr) (s : State) :
    parseTail p (ds :: toks) s
      = xmitLoop p toks 0 { s with len := decVal ds, wbuf := List.replicate MAX_LEN 0 } := by
  have h1 : strspn ds "0123456789".toList = strlen ds := strspn_of_all hds
  have h2 : toUInt32 (atoi p ds) = decVal ds := by
    rw [atoi_dec p ds hds (by omega), toUInt32_small _ (by omega)]
  have h3 : ¬ (decVal ds > MAX_LEN) := by simp [MAX_LEN]; omega
  simp only [parseTail, h1, h2, h3, ne_eq, not_true_eq_false, if_false, false_and,
    reduceCtorEq]

/-- C1: every length 0..32 written in decimal digits, preceded by valid options
with pairwise distinct letters in any order, is accepted by `comparse`; the
request carries the supplied values (`clk_div` is two to the power of the
exponent given) and the initial value of every field no option names. -/
theorem comparse_valid_options (p : Platform) (prog : CStr) (flags : List Flag) (ds : CStr)
    (hv : ∀ f ∈ flags, f.valid) (hnd : (flags.map Flag.letter).Nodup)
    (hds : isDecimal ds) (hlen : decVal ds ≤ 32) :
    ∃ s, comparse p (prog :: (flags.map Flag.render ++ [ds])) State.start
          = some (EXIT_SUCCESS, s)
      ∧ s.len = decVal ds
      ∧ (Flag.ib ∈ flags → s.init = .SPI_BEGIN) ∧ (Flag.ie ∈ flags → s.init = .SPI_END)
      ∧ (Flag.ib ∉ flags → Flag.ie ∉ flags → s.init = .NO_ACTION)
      ∧ (∀ d, Flag.m d ∈ flags → s.mode = d)
      ∧ ((∀ d, Flag.m d ∉ flags) → s.mode = BCM2835_SPI_MODE0)
      ∧ (∀ n, Flag.c n ∈ flags → s.clk_div = 2 ^ decVal n)
      ∧ ((∀ n, Flag.c n ∉ flags) → s.clk_div = BCM2835_SPI_CLOCK_DIVIDER_65536)
      ∧ (∀ d, Flag.s d ∈ flags → s.cs = d)
      ∧ ((∀ d, Flag.s d ∉ flags) → s.cs = BCM2835_SPI_CS0)
      ∧ (∀ d, Flag.p d ∈ flags → s.polarity = d)
      ∧ ((∀ d, Flag.p d ∉ flags) → s.polarity = LOW) := by
  obtain ⟨i1, i2, i3, m1, m2, c1, c2, s1, s2, p1, p2, -⟩ :=
    foldl_apply_fields flags hnd State.start
  refine ⟨{ flags.foldl Flag.apply State.start with
            len := decVal ds, wbuf := List.replicate MAX_LEN 0 }, ?_,
    rfl, i1, i2, i3, m1, m2, c1, c2, s1, s2, p1, p2⟩
  have hlen2 : ¬ ((prog :: (flags.map Flag.render ++ [ds])).length < 2) := by
    simp
  rw [comparse, if_neg hlen2, List.drop_one, List.tail_cons, flagLoop_render p flags hv,
    flagLoop, if_neg (decimal_no_dash ds hds), parseTail_len p ds hds hlen]
  rfl

/-- C1 at `spincl -p1 -ib -c15 -m3 -s2 32`. -/
theorem comparse_valid_options_witness :
    ∃ s, comparse .ILP32
          ["spincl".toList, "-p1".toList, "-ib".toList, "-c15".toList, "-m3".toList,
            "-s2".toList, "32".toList] State.start = some (EXIT_SUCCESS, s)
      ∧ s.len = 32 ∧ s.init = .SPI_BEGIN ∧ s.mode = 3 ∧ s.clk_div = 32768 ∧ s.cs = 2
      ∧ s.polarity = 1 := by
  obtain ⟨s, h, hl, hb, -, -, hm, -, hc, -, hs, -, hp, -⟩ :=
    comparse_valid_options .ILP32 "spincl".toList
      [Flag.p 1, Flag.ib, Flag.c "15".toList, Flag.m 3, Flag.s 2] "32".toList
      (by simp [Flag.valid, isDecimal, decVal]) (by decide) (by unfold isDecimal; decide)
      (by decide)
  exact ⟨s, h, hl, hb (by simp), hm 3 (by simp), hc "15".toList (by simp), hs 2 (by simp),
    hp 1 (by simp)⟩

/-! ## What `comparse` leaves alone -/

theorem flagStep_next_frame {p : Platform} {arg : CStr} {s s1 : State}
    (h : flagStep p arg s = .next s1) :
    s1.calls = s.calls ∧ s1.stdout = s.stdout ∧ s1.rbuf = s.rbuf ∧ s1.len = s.len
      ∧ s1.wbuf = s.wbuf := by
  unfold flagStep at h
  simp only [State.eprint] at h
  split_ifs at h <;> cases h <;> exact ⟨rfl, rfl, rfl, rfl, rfl⟩

theorem flagStep_ret_frame {p : Platform} {arg : CStr} {s s1 : State} {code : Int}
    (h : flagStep p arg s = .ret code s1) :
    code = EXIT_FAILURE ∧ s1.calls = s.calls ∧ s1.stdout = s.stdout ∧ s1.rbuf = s.rbuf := by
  unfold flagStep at h
  simp only [State.eprint] at h
  split_ifs at h <;> cases h <;> exact ⟨rfl, rfl, rfl, rfl⟩

theorem xmitLoop_frame {p : Platform} {toks : List CStr} {i : Nat} {s s1 : State} {code : Int}
    (h : xmitLoop p toks i s = some (code, s1)) :
    (code = EXIT_SUCCESS ∨ code = EXIT_FAILURE) ∧ s1.calls = s.calls ∧ s1.stdout = s.stdout
      ∧ s1.rbuf = s.rbuf ∧ s1.len = s.len ∧ s1.init = s.init := by
  induction toks generalizing i s with
  | nil =>
    simp only [xmitLoop, Option.some.injEq, Prod.mk.injEq] at h
    obtain ⟨h1, h2⟩ := h
    subst h1; subst h2; simp
  | cons tok rest ih =>
    simp only [xmitLoop] at h
    split_ifs at h with h1 h2
    · simp only [Option.some.injEq, Prod.mk.injEq] at h
      obtain ⟨h1, h2⟩ := h
      subst h1; subst h2; simp [State.eprint]
    · simpa using ih h

theorem parseTail_frame {p : Platform} {rest : List CStr} {s s1 : State} {code : Int}
    (h : parseTail p rest s = some (code, s1)) :
    (code = EXIT_SUCCESS ∨ code = EXIT_FAILURE) ∧ s1.calls = s.calls ∧ s1.stdout = s.stdout
      ∧ s1.rbuf = s.rbuf ∧ (code = EXIT_SUCCESS → s.len ≤ MAX_LEN → s1.len ≤ MAX_LEN) := by
  unfold parseTail at h
  split_ifs at h with h0
  · simp only [Option.some.injEq, Prod.mk.injEq] at h
    obtain ⟨h1, h2⟩ := h
    subst h1; subst h2; simp
  · cases rest with
    | nil => cases h
    | cons lenArg toks =>
      simp only at h
      split_ifs at h with h1 h2
      · simp only [Option.some.injEq, Prod.mk.injEq] at h
        obtain ⟨h1, h2⟩ := h
        subst h1; subst h2; simp [State.eprint, EXIT_FAILURE, EXIT_SUCCESS]
      · simp only [Option.some.injEq, Prod.mk.injEq] at h
        obtain ⟨h1, h2⟩ := h
        subst h1; subst h2; simp [State.eprint, EXIT_FAILURE, EXIT_SUCCESS]
      · obtain ⟨a, b, c, d, e, -⟩ := xmitLoop_frame h
        refine ⟨a, b, c, d, fun _ _ => ?_⟩
        rw [e]
        exact Nat.le_of_not_lt h2

theorem flagLoop_frame {p : Platform} {rest : List CStr} {s s1 : State} {code : Int}
    (h : flagLoop p rest s = some (code, s1)) :
    (code = EXIT_SUCCESS ∨ code = EXIT_FAILURE) ∧ s1.calls = s.calls ∧ s1.stdout = s.stdout
      ∧ s1.rbuf = s.rbuf ∧ (code = EXIT_SUCCESS → s.len ≤ MAX_LEN → s1.len ≤ MAX_LEN) := by
  induction rest generalizing s with
  | nil => exact parseTail_frame (by simpa [flagLoop] using h)
  | cons arg rest ih =>
    simp only [flagLoop] at h
    split_ifs at h with h0
    · cases hs : flagStep p arg s with
      | next s2 =>
        rw [hs] at h
        obtain ⟨a, b, c, d, _⟩ := flagStep_next_frame hs
        have := ih h
        rw [a, b, c, d] at this
        exact this
      | ret code2 s2 =>
        rw [hs] at h
        simp only [Option.some.injEq, Prod.mk.injEq] at h
        obtain ⟨h1, h2⟩ := h
        subst h1; subst h2
        obtain ⟨a, b, c, d⟩ := flagStep_ret_frame hs
        subst a
        exact ⟨Or.inr rfl, b, c, d, fun hc => by cases hc⟩
      | undefined => rw [hs] at h; cases h
    · exact parseTail_frame h

theorem comparse_frame {p : Platform} {argv : List CStr} {s s1 : State} {code : Int}
    (h : comparse p argv s = some (code, s1)) :
    (code = EXIT_SUCCESS ∨ code = EXIT_FAILURE) ∧ s1.calls = s.calls ∧ s1.stdout = s.stdout
      ∧ s1.rbuf = s.rbuf ∧ (code = EXIT_SUCCESS → s.len ≤ MAX_LEN → s1.len ≤ MAX_LEN) := by
  unfold comparse at h
  split_ifs at h
  · simp only [Option.some.injEq, Prod.mk.injEq] at h
    obtain ⟨h1, h2⟩ := h
    subst h1; subst h2
    exact ⟨Or.inr rfl, rfl, rfl, rfl, fun hc => by cases hc⟩
  · exact flagLoop_frame h

/-! ## `main` -/

theorem printLoop_isSome (p : Platform) (n i : Nat) (s : State)
    (h : i + n ≤ s.rbuf.length) : printLoop p n i s ≠ none := by
  induction n generalizing i s with
  | zero => simp [printLoop]
  | succ n ih =>
    have hi : i < s.rbuf.length := by omega
    simp only [printLoop, List.get?_eq_getElem?, List.getElem?_eq_getElem hi]
    exact ih (i + 1) _ (by simp [State.print]; omega)

theorem printLoop_calls {p : Platform} {n i : Nat} {s s1 : State}
    (h : printLoop p n i s = some s1) :
    s1.calls = s.calls := by
  induction n generalizing i s with
  | zero => simp only [printLoop, Option.some.injEq] at h; rw [← h]
  | succ n ih =>
    simp only [printLoop] at h
    split at h
    · have := ih h
      simpa [State.print] using this
    · cases h

/-- The calls `main` makes once `comparse` has returned success with a
non-zero `len` within the buffers and nothing called yet. -/
theorem main_calls_after_parse (w : World) (argv : List CStr) (s : State)
    (hinit : w.initOk = true)
    (hparse : comparse w.plat argv State.start = some (EXIT_SUCCESS, s))
    (hnil : s.calls = []) (hle : s.len ≤ MAX_LEN) (hne : s.len ≠ 0) :
    ∃ s1, main w argv = some (EXIT_SUCCESS, s1)
      ∧ s1.calls =
          [DriverCall.bcm2835_init]
            ++ (if s.init = .SPI_BEGIN then [DriverCall.bcm2835_spi_begin] else [])
            ++ [DriverCall.bcm2835_spi_setDataMode s.mode,
                DriverCall.bcm2835_spi_setClockDivider s.clk_div,
                DriverCall.bcm2835_spi_chipSelect s.cs,
                DriverCall.bcm2835_spi_setChipSelectPolarity s.cs s.polarity,
                DriverCall.bcm2835_spi_transfernb s.wbuf (List.replicate MAX_LEN 0) s.len]
            ++ (if s.init = .SPI_END then [DriverCall.bcm2835_spi_end] else [])
            ++ [DriverCall.bcm2835_close] := by
  have hfail : ¬ (EXIT_SUCCESS = EXIT_FAILURE) := by decide
  obtain ⟨rbuf, wbuf, len, init, mode, clk_div, cs, polarity, stderr, stdout, calls⟩ := s
  simp only at hle hnil hne
  subst hnil
  have h32 : len ≤ 32 := hle
  cases init
  all_goals
    simp only [main, hparse, hfail, if_false, hinit, Bool.not_true, State.call, hne,
      transfernb, hle, if_true, reduceCtorEq, Bool.false_eq_true, List.nil_append]
    split
    · rename_i heq
      exact absurd heq (printLoop_isSome _ _ _ _ (by simp [MAX_LEN]))
    · rename_i s1 heq
      exact ⟨_, rfl, by simp [State.print, printLoop_calls heq]⟩

/-- C3: after a successful parse with `len > 0` and a successful
`bcm2835_init`, `main` returns success having called, in this order:
`bcm2835_init`; `bcm2835_spi_begin` only when `init` is `SPI_BEGIN`; the four
configuration functions with `mode`, `clk_div`, `cs` and `(cs, polarity)`; one
transfer of `len` bytes of `wbuf` into a zeroed `rbuf`; `bcm2835_spi_end` only
when `init` is `SPI_END`; `bcm2835_close`. -/
theorem main_call_sequence (w : World) (argv : List CStr) (s : State)
    (hinit : w.initOk = true)
    (hparse : comparse w.plat argv State.start = some (EXIT_SUCCESS, s))
    (hlen : 0 < s.len) :
    ∃ s1, main w argv = some (EXIT_SUCCESS, s1)
      ∧ s1.calls =
          [DriverCall.bcm2835_init]
            ++ (if s.init = .SPI_BEGIN then [DriverCall.bcm2835_spi_begin] else [])
            ++ [DriverCall.bcm2835_spi_setDataMode s.mode,
                DriverCall.bcm2835_spi_setClockDivider s.clk_div,
                DriverCall.bcm2835_spi_chipSelect s.cs,
                DriverCall.bcm2835_spi_setChipSelectPolarity s.cs s.polarity,
                DriverCall.bcm2835_spi_transfernb s.wbuf (List.replicate MAX_LEN 0) s.len]
            ++ (if s.init = .SPI_END then [DriverCall.bcm2835_spi_end] else [])
            ++ [DriverCall.bcm2835_close] := by
  obtain ⟨-, hcalls, -, -, hle0⟩ := comparse_frame hparse
  have hle : s.len ≤ MAX_LEN := hle0 rfl (by decide)
  have hne : s.len ≠ 0 := by omega
  exact main_calls_after_parse w argv s hinit hparse hcalls hle hne

/-! ## The transmit bytes -/

theorem set_take_succ (l : List Nat) (i v : Nat) (h : i < l.length) :
    (l.set i v).take (i + 1) = l.take i ++ [v] := by
  apply List.ext_getElem? 
  intro j
  simp only [List.getElem?_take, List.getElem?_set, List.getElem?_append, List.length_take]
  by_cases h1 : j < i
  · have : ¬ i = j := by omega
    simp [h1, this, Nat.lt_succ_of_lt h1, Nat.min_eq_left (Nat.le_of_lt h)]
  · by_cases h2 : j = i
    · subst h2
      simp [h, Nat.min_eq_left (Nat.le_of_lt h)]
    · have h3 : ¬ j < i + 1 := by omega
      have h4 : ¬ j < min i l.length := by omega
      simp [h3, h4]
      omega

theorem set_drop_succ (l : List Nat) (i k v : Nat) :
    (l.set i v).drop (i + 1 + k) = l.drop (i + 1 + k) := by
  apply List.ext_getElem?
  intro j
  have : ¬ i = i + 1 + k + j := by omega
  simp [List.getElem?_drop, List.getElem?_set, this]

theorem xmitLoop_ok (p : Platform) (toks : List CStr) (i : Nat) (s : State)
    (hv : ∀ t ∈ toks, isDataToken t) (hb : i + toks.length ≤ MAX_LEN)
    (hw : s.wbuf.length = MAX_LEN) :
    xmitLoop p toks i s = some (EXIT_SUCCESS,
      { s with wbuf := s.wbuf.take i ++ toks.map (fun t => toUInt8 (strtoul0 p t))
                        ++ s.wbuf.drop (i + toks.length) }) := by
  induction toks generalizing i s with
  | nil => simp [xmitLoop]
  | cons t ts ih =>
    have ht : strspn t "0123456789abcdefABCDEFxX".toList = strlen t :=
      strspn_of_all (hv t (List.mem_cons_self _ _))
    have hts : ∀ u ∈ ts, isDataToken u := fun u hu => hv u (List.mem_cons_of_mem _ hu)
    have hi : i < MAX_LEN := by simp only [List.length_cons] at hb; omega
    simp only [xmitLoop, ht, ne_eq, not_true_eq_false, if_false, hi, if_true]
    rw [ih (i + 1) _ hts (by simp only [List.length_cons] at hb; omega) (by simpa using hw)]
    simp only [set_take_succ _ _ _ (hw ▸ hi), List.map_cons, List.length_cons,
      List.append_assoc, List.singleton_append]
    rw [show i + 1 + ts.length = i + (ts.length + 1) by omega] 
    congr 4
    rw [show i + (ts.length + 1) = i + 1 + ts.length by omega, set_drop_succ]

theorem foldl_apply_frame (flags : List Flag) (s : State) :
    (flags.foldl Flag.apply s).len = s.len ∧ (flags.foldl Flag.apply s).wbuf = s.wbuf
      ∧ (flags.foldl Flag.apply s).rbuf = s.rbuf
      ∧ (flags.foldl Flag.apply s).stderr = s.stderr
      ∧ (flags.foldl Flag.apply s).stdout = s.stdout
      ∧ (flags.foldl Flag.apply s).calls = s.calls := by
  induction flags generalizing s with
  | nil => simp
  | cons f fs ih =>
    simp only [List.foldl_cons]
    obtain ⟨a, b, c, d, e, g⟩ := ih (f.apply s)
    rw [a, b, c, d, e, g]
    cases f <;> simp [Flag.apply]

theorem foldl_apply_init_keep (flags : List Flag) (h : ∀ f ∈ flags, f.letter ≠ 'i')
    (s : State) : (flags.foldl Flag.apply s).init = s.init := by
  induction flags generalizing s with
  | nil => rfl
  | cons f fs ih =>
    simp only [List.foldl_cons]
    rw [ih (fun g hg => h g (List.mem_cons_of_mem _ hg))]
    have hf := h f (List.mem_cons_self _ _)
    cases f <;> first | rfl | exact absurd rfl hf

theorem comparse_ok (p : Platform) (prog : CStr) (flags : List Flag) (ds : CStr)
    (toks : List CStr) (hv : ∀ f ∈ flags, f.valid) (hds : isDecimal ds)
    (hlen : decVal ds ≤ 32) (ht : ∀ t ∈ toks, isDataToken t) (hk : toks.length ≤ MAX_LEN) :
    comparse p (prog :: (flags.map Flag.render ++ ds :: toks)) State.start
      = some (EXIT_SUCCESS,
          { flags.foldl Flag.apply State.start with
            len := decVal ds
            wbuf := toks.map (fun t => toUInt8 (strtoul0 p t))
                      ++ List.replicate (MAX_LEN - toks.length) 0 }) := by
  have hlen2 : ¬ ((prog :: (flags.map Flag.render ++ ds :: toks)).length < 2) := by
    simp only [List.length_cons, List.length_append, List.length_map]
    omega
  rw [comparse, if_neg hlen2, List.drop_one, List.tail_cons, flagLoop_render p flags hv,
    flagLoop, if_neg (decimal_no_dash ds hds), parseTail_len p ds hds hlen,
    xmitLoop_ok p toks 0 _ ht (by omega) (by simp)]
  simp

/-! ## Order of the driver calls -/

/-- C2, counterexample: on `spincl -ib -ie 2 1 2` the program returns success
and the bus pins are never claimed: `-ie` has replaced the `SPI_BEGIN` that
`-ib` stored in `init`, so `bcm2835_spi_begin` is not among the calls. -/
theorem claim_then_release_counterexample :
    ∃ s, main ⟨.ILP32, "1.3.1", true, fun _ => 0⟩
          ["spincl".toList, "-ib".toList, "-ie".toList, "2".toList, "1".toList, "2".toList]
          = some (EXIT_SUCCESS, s)
      ∧ DriverCall.bcm2835_spi_begin ∉ s.calls := by
  refine ⟨_, rfl, ?_⟩
  decide

/-- C2, amended: when `-ie` is the last `-i` option (whatever precedes it, `-ib`
included), the length is in 1..32 and at most 32 data tokens follow, the calls
are, in order: `bcm2835_init`, the four configuration functions, the transfer,
`bcm2835_spi_end`, `bcm2835_close`. The pins are released after the transfer
and are not claimed. -/
theorem release_after_transfer (w : World) (prog : CStr) (pre post : List Flag) (ds : CStr)
    (toks : List CStr) (hinit : w.initOk = true)
    (hpre : ∀ f ∈ pre, f.valid) (hpost : ∀ f ∈ post, f.valid ∧ f.letter ≠ 'i')
    (hds : isDecimal ds) (hpos : 0 < decVal ds) (hlen : decVal ds ≤ 32)
    (ht : ∀ t ∈ toks, isDataToken t) (hk : toks.length ≤ MAX_LEN) :
    ∃ s s1,
      comparse w.plat (prog :: ((pre ++ Flag.ie :: post).map Flag.render ++ ds :: toks))
          State.start = some (EXIT_SUCCESS, s)
      ∧ main w (prog :: ((pre ++ Flag.ie :: post).map Flag.render ++ ds :: toks))
          = some (EXIT_SUCCESS, s1)
      ∧ s1.calls =
          [DriverCall.bcm2835_init,
           DriverCall.bcm2835_spi_setDataMode s.mode,
           DriverCall.bcm2835_spi_setClockDivider s.clk_div,
           DriverCall.bcm2835_spi_chipSelect s.cs,
           DriverCall.bcm2835_spi_setChipSelectPolarity s.cs s.polarity,
           DriverCall.bcm2835_spi_transfernb s.wbuf (List.replicate MAX_LEN 0) s.len,
           DriverCall.bcm2835_spi_end,
           DriverCall.bcm2835_close] := by
  have hv : ∀ f ∈ pre ++ Flag.ie :: post, f.valid := by
    intro f hf
    rcases List.mem_append.mp hf with h | h
    · exact hpre f h
    · rcases List.mem_cons.mp h with h | h
      · subst h; trivial
      · exact (hpost f h).1
  have hparse := comparse_ok w.plat prog (pre ++ Flag.ie :: post) ds toks hv hds hlen ht hk
  have hin : (List.foldl Flag.apply State.start (pre ++ Flag.ie :: post)).init
      = spi_init.SPI_END := by
    rw [List.foldl_append, List.foldl_cons,
      foldl_apply_init_keep post (fun f hf => (hpost f hf).2)]
    rfl
  obtain ⟨-, hcalls, -, -, hle0⟩ := comparse_frame hparse
  obtain ⟨s1, h1, h2⟩ := main_calls_after_parse w _ _ hinit hparse hcalls
    (hle0 rfl (by decide)) (Nat.pos_iff_ne_zero.mp hpos)
  refine ⟨_, s1, hparse, h1, ?_⟩
  rw [h2]
  simp only [hin, reduceCtorEq, if_false, if_true, List.append_nil, List.cons_append,
    List.nil_append]

/-- C2, amended, at `spincl -ib -ie 2 1 2`. -/
theorem release_after_transfer_witness :
    ∃ s s1,
      comparse .ILP32
          ["spincl".toList, "-ib".toList, "-ie".toList, "2".toList, "1".toList, "2".toList]
          State.start = some (EXIT_SUCCESS, s)
      ∧ main ⟨.ILP32, "1.3.1", true, fun _ => 0⟩
          ["spincl".toList, "-ib".toList, "-ie".toList, "2".toList, "1".toList, "2".toList]
          = some (EXIT_SUCCESS, s1)
      ∧ s1.calls =
          [DriverCall.bcm2835_init,
           DriverCall.bcm2835_spi_setDataMode s.mode,
           DriverCall.bcm2835_spi_setClockDivider s.clk_div,
           DriverCall.bcm2835_spi_chipSelect s.cs,
           DriverCall.bcm2835_spi_setChipSelectPolarity s.cs s.polarity,
           DriverCall.bcm2835_spi_transfernb s.wbuf (List.replicate MAX_LEN 0) s.len,
           DriverCall.bcm2835_spi_end,
           DriverCall.bcm2835_close] :=
  release_after_transfer ⟨.ILP32, "1.3.1", true, fun _ => 0⟩ "spincl".toList [Flag.ib] []
    "2".toList ["1".toList, "2".toList] rfl (by simp [Flag.valid]) (by simp)
    (by unfold isDecimal; decide) (by decide) (by decide)
    (by unfold isDataToken; decide) (by decide)

/-- C3 at `spincl -ie 2 1 2`. -/
theorem main_call_sequence_witness :
    ∃ s1, main ⟨.LP64, "1.3.1", true, fun i => 160 + i⟩
          ["spincl".toList, "-ie".toList, "2".toList, "1".toList, "2".toList]
          = some (EXIT_SUCCESS, s1)
      ∧ s1.calls =
          [DriverCall.bcm2835_init,
           DriverCall.bcm2835_spi_setDataMode 0,
           DriverCall.bcm2835_spi_setClockDivider 0,
           DriverCall.bcm2835_spi_chipSelect 0,
           DriverCall.bcm2835_spi_setChipSelectPolarity 0 0,
           DriverCall.bcm2835_spi_transfernb ([1, 2] ++ List.replicate 30 0)
             (List.replicate 32 0) 2,
           DriverCall.bcm2835_spi_end,
           DriverCall.bcm2835_close] :=
  main_call_sequence ⟨.LP64, "1.3.1", true, fun i => 160 + i⟩
    ["spincl".toList, "-ie".toList, "2".toList, "1".toList, "2".toList]
    { State.start with len := 2, init := .SPI_END, wbuf := [1, 2] ++ List.replicate 30 0 }
    rfl rfl (by decide)

/-! ## Parse failures -/

theorem foldl_print (l : List String) (s : State) :
    (l.foldl State.print s).calls = s.calls
      ∧ (l.foldl State.print s).stdout = l.foldl (fun a b => a ++ b) s.stdout := by
  induction l generalizing s with
  | nil => exact ⟨rfl, rfl⟩
  | cons x xs ih =>
    simp only [List.foldl_cons]
    obtain ⟨a, b⟩ := ih (s.print x)
    exact ⟨a, b⟩

/-- C4: when `comparse` returns `EXIT_FAILURE`, `main` returns `EXIT_FAILURE`
with no call into the bcm2835 library, and what it has written to standard
output is the usage statement. -/
theorem main_parse_failure (w : World) (argv : List CStr) (s : State)
    (hparse : comparse w.plat argv State.start = some (EXIT_FAILURE, s)) :
    ∃ s1, main w argv = some (EXIT_FAILURE, s1) ∧ s1.calls = []
      ∧ s1.stdout = (usageText w.version).foldl (fun a b => a ++ b) "" := by
  obtain ⟨-, hcalls, hout, -⟩ := comparse_frame hparse
  obtain ⟨a, b⟩ := foldl_print (usageText w.version) s
  refine ⟨(usageText w.version).foldl State.print s, ?_, ?_, ?_⟩
  · simp [main, hparse, showusage]
  · rw [a, hcalls]; rfl
  · rw [b, hout]; rfl

/-- C4 at `spincl 12a`. -/
theorem main_parse_failure_witness :
    ∃ s1, main ⟨.ILP32, "1.3.1", true, fun _ => 0⟩ ["spincl".toList, "12a".toList]
          = some (EXIT_FAILURE, s1) ∧ s1.calls = []
      ∧ s1.stdout = (usageText "1.3.1").foldl (fun a b => a ++ b) "" :=
  main_parse_failure ⟨.ILP32, "1.3.1", true, fun _ => 0⟩ ["spincl".toList, "12a".toList]
    (State.start.eprint "Invalid number of bytes specified\n") rfl

/-! ## The length token -/

/-- C5, failing input: with a 64-bit `long`, `atoi` turns the length
`4294967296` into 0, and `comparse` returns success with `len = 0`; `main`
then reports success without any transfer. With a 32-bit `long` the same
length is refused. -/
theorem length_above_max_accepted :
    comparse .LP64 ["spincl".toList, "4294967296".toList] State.start
        = some (EXIT_SUCCESS, State.start)
      ∧ (main ⟨.LP64, "1.3.1", true, fun _ => 0⟩ ["spincl".toList, "4294967296".toList]).map
          (fun r => (r.1, r.2.calls, r.2.stdout))
        = some (EXIT_SUCCESS, [DriverCall.bcm2835_init], "")
      ∧ (comparse .ILP32 ["spincl".toList, "4294967296".toList] State.start).map
          (fun r => r.1) = some EXIT_FAILURE := by
  refine ⟨rfl, rfl, rfl⟩

/-- A length above 32 that fits in an `int` is refused, with any valid
options in front and whatever follows it. -/
theorem length_above_max_in_range (p : Platform) (prog : CStr) (flags : List Flag)
    (ds : CStr) (toks : List CStr) (hv : ∀ f ∈ flags, f.valid) (hds : isDecimal ds)
    (hbig : 32 < decVal ds) (hfit : decVal ds < 2147483648) :
    ∃ s, comparse p (prog :: (flags.map Flag.render ++ ds :: toks)) State.start
        = some (EXIT_FAILURE, s) := by
  have hlen2 : ¬ ((prog :: (flags.map Flag.render ++ ds :: toks)).length < 2) := by
    simp only [List.length_cons, List.length_append, List.length_map]
    omega
  have h1 : strspn ds "0123456789".toList = strlen ds := strspn_of_all hds
  have h2 : toUInt32 (atoi p ds) = decVal ds := by
    rw [atoi_dec p ds hds hfit, toUInt32_small _ (by omega)]
  have h3 : decVal ds > MAX_LEN := hbig
  rw [comparse, if_neg hlen2, List.drop_one, List.tail_cons, flagLoop_render p flags hv,
    flagLoop, if_neg (decimal_no_dash ds hds)]
  simp only [parseTail, h1, h2, h3, ne_eq, not_true_eq_false, if_false, false_and,
    reduceCtorEq, if_true]
  exact ⟨_, rfl⟩

/-- With a 32-bit `long` every length above 32 is refused, however many
digits it has. -/
theorem length_above_max_ilp32 (prog : CStr) (flags : List Flag)
    (ds : CStr) (toks : List CStr) (hv : ∀ f ∈ flags, f.valid) (hds : isDecimal ds)
    (hbig : 32 < decVal ds) :
    ∃ s, comparse .ILP32 (prog :: (flags.map Flag.render ++ ds :: toks)) State.start
        = some (EXIT_FAILURE, s) := by
  have hlen2 : ¬ ((prog :: (flags.map Flag.render ++ ds :: toks)).length < 2) := by
    simp only [List.length_cons, List.length_append, List.length_map]
    omega
  have h1 : strspn ds "0123456789".toList = strlen ds := strspn_of_all hds
  have h3 : toUInt32 (atoi .ILP32 ds) > MAX_LEN := by
    rw [atoi, strtol10_dec _ ds hds]
    simp only [LONG_MAX, Platform.longBits, toInt32, toUInt32, MAX_LEN]
    omega
  rw [comparse, if_neg hlen2, List.drop_one, List.tail_cons, flagLoop_render _ flags hv,
    flagLoop, if_neg (decimal_no_dash ds hds)]
  simp only [parseTail, h1, h3, ne_eq, not_true_eq_false, if_false, false_and,
    reduceCtorEq, if_true]
  exact ⟨_, rfl⟩

/-- Where `comparse` returns success without a store outside `wbuf`, `len` is
at most `MAX_LEN`; `main` then runs to its end with every access of the
transfer and of the print loop inside `rbuf` and `wbuf` (an access outside
would leave `main` without a result). -/
theorem comparse_len_bound (p : Platform) (argv : List CStr) (s : State)
    (hparse : comparse p argv State.start = some (EXIT_SUCCESS, s)) :
    s.len ≤ MAX_LEN ∧ ∀ w : World, w.plat = p → ∃ r, main w argv = some r := by
  obtain ⟨-, hcalls, -, -, hle⟩ := comparse_frame hparse
  refine ⟨hle rfl (by decide), ?_⟩
  intro w hw
  subst hw
  have hfail : ¬ (EXIT_SUCCESS = EXIT_FAILURE) := by decide
  apply Option.ne_none_iff_exists'.mp
  cases hi : w.initOk with
  | false => simp [main, hparse, hfail, hi]
  | true =>
    by_cases h0 : s.len = 0
    · cases hin : s.init <;> simp [main, hparse, hfail, hi, h0, hin, State.call]
    · obtain ⟨s1, h1, -⟩ :=
        main_calls_after_parse w argv s hi hparse hcalls (hle rfl (by decide)) h0
      simp [h1]

/-- The bound on `len` at `spincl 32`. -/
theorem comparse_len_bound_witness :
    (32 : Nat) ≤ MAX_LEN ∧ ∀ w : World, w.plat = .ILP32 →
      ∃ r, main w ["spincl".toList, "32".toList] = some r :=
  comparse_len_bound .ILP32 ["spincl".toList, "32".toList] { State.start with len := 32 } rfl

/-- C7: a length token (the first argument that does not begin with `-`) with
a character that is not a decimal digit makes `comparse` return failure, with
any valid options in front and whatever follows; the message is the one for
an invalid number of bytes. -/
theorem bad_length_token (p : Platform) (prog : CStr) (flags : List Flag) (lenTok : CStr)
    (toks : List CStr) (hv : ∀ f ∈ flags, f.valid) (hdash : charAt lenTok 0 ≠ '-')
    (hbad : ∃ c ∈ lenTok, c ∉ "0123456789".toList) :
    ∃ s, comparse p (prog :: (flags.map Flag.render ++ lenTok :: toks)) State.start
          = some (EXIT_FAILURE, s)
      ∧ s.stderr = "Invalid number of bytes specified\n" := by
  obtain ⟨c, hc, hnot⟩ := hbad
  have hlen2 : ¬ ((prog :: (flags.map Flag.render ++ lenTok :: toks)).length < 2) := by
    simp only [List.length_cons, List.length_append, List.length_map]
    omega
  have h1 : strspn lenTok "0123456789".toList ≠ strlen lenTok := strspn_of_bad hc hnot
  rw [comparse, if_neg hlen2, List.drop_one, List.tail_cons, flagLoop_render p flags hv,
    flagLoop, if_neg hdash]
  simp only [parseTail, h1, ne_eq, not_false_eq_true, if_true, false_and, reduceCtorEq,
    if_false]
  refine ⟨_, rfl, ?_⟩
  simp only [State.eprint, (foldl_apply_frame flags State.start).2.2.2.1]
  rfl

/-- C7 at `spincl -m1 12a 7`. -/
theorem bad_length_token_witness :
    ∃ s, comparse .LP64 ["spincl".toList, "-m1".toList, "12a".toList, "7".toList]
          State.start = some (EXIT_FAILURE, s)
      ∧ s.stderr = "Invalid number of bytes specified\n" :=
  bad_length_token .LP64 "spincl".toList [Flag.m 1] "12a".toList ["7".toList]
    (by simp [Flag.valid]) (by decide) ⟨'a', by decide, by decide⟩

/-- Options without `-ib` or `-ie` and nothing after them: `comparse` hands
the null pointer `argv[argc]` to `strspn`. -/
theorem flags_only_undefined (p : Platform) (prog : CStr) (flags : List Flag)
    (hne : flags ≠ []) (hv : ∀ f ∈ flags, f.valid ∧ f.letter ≠ 'i') :
    comparse p (prog :: flags.map Flag.render) State.start = none := by
  have hlen2 : ¬ ((prog :: flags.map Flag.render).length < 2) := by
    cases flags with
    | nil => exact absurd rfl hne
    | cons f fs => simp
  have hin : (flags.foldl Flag.apply State.start).init = spi_init.NO_ACTION :=
    foldl_apply_init_keep flags (fun f hf => (hv f hf).2) State.start
  have := flagLoop_render p flags (fun f hf => (hv f hf).1) [] State.start
  rw [List.append_nil] at this
  rw [comparse, if_neg hlen2, List.drop_one, List.tail_cons, this]
  simp [flagLoop, parseTail, hin]

/-- C8, failing input: on `spincl -m0` (on `spincl -m0 -c3 -s1 -p1` as well)
`comparse` neither fails nor succeeds: it reaches `strspn(argv[argc], ...)`
with `argv[argc]` the null pointer, and `main` has no result either. With no
argument at all it does return failure. -/
theorem missing_length_null_argument :
    comparse .ILP32 ["spincl".toList, "-m0".toList] State.start = none
      ∧ comparse .LP64 ["spincl".toList, "-m0".toList] State.start = none
      ∧ comparse .ILP32
          ["spincl".toList, "-m0".toList, "-c3".toList, "-s1".toList, "-p1".toList]
          State.start = none
      ∧ main ⟨.ILP32, "1.3.1", true, fun _ => 0⟩ ["spincl".toList, "-m0".toList] = none
      ∧ comparse .ILP32 ["spincl".toList] State.start
          = some (EXIT_FAILURE, State.start.eprint "Insufficient command line arguments\n") := by
  refine ⟨rfl, rfl, rfl, rfl, rfl⟩

/-! ## Numeric literals -/

theorem octal_facts {c : Char} (h : c ∈ "01234567".toList) :
    digitVal c = c.toNat - 48 ∧ digitVal c < 8 ∧ c ≠ 'x' ∧ c ≠ 'X'
      ∧ c ∈ "0123456789abcdefABCDEFxX".toList := by
  have h2 : c = '0' ∨ c = '1' ∨ c = '2' ∨ c = '3' ∨ c = '4' ∨ c = '5' ∨ c = '6' ∨ c = '7' := by
    simpa using h
  rcases h2 with h | h | h | h | h | h | h | h <;> subst h <;> decide

theorem hex_facts {c : Char} (h : c ∈ "0123456789abcdefABCDEF".toList) :
    digitVal c = hexDigit c ∧ digitVal c < 16 ∧ c ∈ "0123456789abcdefABCDEFxX".toList := by
  have h2 : c = '0' ∨ c = '1' ∨ c = '2' ∨ c = '3' ∨ c = '4' ∨ c = '5' ∨ c = '6' ∨ c = '7'
      ∨ c = '8' ∨ c = '9' ∨ c = 'a' ∨ c = 'b' ∨ c = 'c' ∨ c = 'd' ∨ c = 'e' ∨ c = 'f'
      ∨ c = 'A' ∨ c = 'B' ∨ c = 'C' ∨ c = 'D' ∨ c = 'E' ∨ c = 'F' := by
    simpa using h
  rcases h2 with h | h | h | h | h | h | h | h | h | h | h | h | h | h | h | h | h | h | h
    | h | h | h <;> subst h <;> decide

theorem nonzero_digit_facts {c : Char} (h : c ∈ "123456789".toList) :
    c ∈ "0123456789".toList ∧ c ≠ '0' := by
  have h2 : c = '1' ∨ c = '2' ∨ c = '3' ∨ c = '4' ∨ c = '5' ∨ c = '6' ∨ c = '7'
      ∨ c = '8' ∨ c = '9' := by simpa using h
  rcases h2 with h | h | h | h | h | h | h | h | h <;> subst h <;> decide

theorem decimal_data {c : Char} (h : c ∈ "0123456789".toList) :
    c ∈ "0123456789abcdefABCDEFxX".toList := by
  have h2 : c = '0' ∨ c = '1' ∨ c = '2' ∨ c = '3' ∨ c = '4' ∨ c = '5' ∨ c = '6' ∨ c = '7'
      ∨ c = '8' ∨ c = '9' := by simpa using h
  rcases h2 with h | h | h | h | h | h | h | h | h | h <;> subst h <;> decide

theorem parseDigits_oct (s : CStr) (h : isOctal s) (acc : Nat) :
    parseDigits 8 s acc = s.foldl (fun a c => 8 * a + (c.toNat - 48)) acc := by
  induction s generalizing acc with
  | nil => rfl
  | cons c cs ih =>
    have hc := octal_facts (h c (List.mem_cons_self _ _))
    have hcs : isOctal cs := fun d hd => h d (List.mem_cons_of_mem _ hd)
    simp only [parseDigits, hc.2.1, if_true, List.foldl_cons]
    rw [ih hcs, hc.1, Nat.mul_comm]

theorem parseDigits_hex (s : CStr) (h : isHex s) (acc : Nat) :
    parseDigits 16 s acc = s.foldl (fun a c => 16 * a + hexDigit c) acc := by
  induction s generalizing acc with
  | nil => rfl
  | cons c cs ih =>
    have hc := hex_facts (h c (List.mem_cons_self _ _))
    have hcs : isHex cs := fun d hd => h d (List.mem_cons_of_mem _ hd)
    simp only [parseDigits, hc.2.1, if_true, List.foldl_cons]
    rw [ih hcs, hc.1, Nat.mul_comm]

theorem saturate_min (u m : Nat) : (if u < m then u else m) = min m u := by
  split <;> omega

/-- What `strtoul0` does with a string that starts with neither white space
nor a sign: only the base detection and the saturation are left. -/
theorem strtoul0_plain (p : Platform) (c c1 : Char) (rest : CStr) (hs : isspace c = false)
    (hm : c ≠ '-') (hp : c ≠ '+') :
    strtoul0 p (c :: c1 :: rest) =
      min (if c = '0' ∧ (c1 = 'x' ∨ c1 = 'X') then parseDigits 16 rest 0
           else if c = '0' then parseDigits 8 (c :: c1 :: rest) 0
           else parseDigits 10 (c :: c1 :: rest) 0) (ULONG_MAX p) := by
  have h1 : skipSpace (c :: c1 :: rest) = c :: c1 :: rest := by
    simp [skipSpace, List.dropWhile, hs]
  have h2 : takeSign (c :: c1 :: rest) = (false, c :: c1 :: rest) := by
    simp [takeSign, hm, hp]
  simp only [strtoul0, h1, h2]
  exact saturate_min _ _

theorem strtoul0_single (p : Platform) (c : Char) (hs : isspace c = false)
    (hm : c ≠ '-') (hp : c ≠ '+') :
    strtoul0 p [c] =
      min (if c = '0' then parseDigits 8 [c] 0 else parseDigits 10 [c] 0) (ULONG_MAX p) := by
  have h1 : skipSpace [c] = [c] := by simp [skipSpace, List.dropWhile, hs]
  have h2 : takeSign [c] = (false, [c]) := by simp [takeSign, hm, hp]
  simp only [strtoul0, h1, h2]
  exact saturate_min _ _

/-- On a well-formed literal `strtoul0` yields the value of the literal,
replaced by `ULONG_MAX` when it exceeds it; the literal passes the check
`comparse` makes on a transmit token. -/
theorem strtoul0_literal (p : Platform) (s : CStr) (v : Nat) (h : litValue s = some v) :
    isDataToken s ∧ strtoul0 p s = min v (ULONG_MAX p) := by
  cases s with
  | nil => cases h
  | cons c0 rest =>
    simp only [litValue] at h
    by_cases h0 : c0 = '0'
    · -- leading zero
      rw [if_pos h0] at h
      subst h0
      cases rest with
      | nil =>
        simp only [Option.some.injEq] at h
        subst h
        refine ⟨by unfold isDataToken; decide, ?_⟩
        rw [strtoul0_single p _ (by decide) (by decide) (by decide)]
        rfl
      | cons c1 ds =>
        simp only at h
        rw [strtoul0_plain p _ _ _ (by decide) (by decide) (by decide)]
        by_cases hx : c1 = 'x' ∨ c1 = 'X'
        · -- hexadecimal
          rw [if_pos hx] at h
          by_cases hhex : ds ≠ [] ∧ isHex ds
          · rw [if_pos hhex] at h
            simp only [Option.some.injEq] at h
            subst h
            refine ⟨?_, ?_⟩
            · intro c hc
              rcases List.mem_cons.mp hc with hc | hc
              · subst hc; decide
              · rcases List.mem_cons.mp hc with hc | hc
                · subst hc; rcases hx with hx | hx <;> subst hx <;> decide
                · exact (hex_facts (hhex.2 c hc)).2.2
            · simp only [hx, and_self, if_true, parseDigits_hex ds hhex.2 0, hexVal]
          · rw [if_neg hhex] at h
            cases h
        · -- octal
          rw [if_neg hx] at h
          by_cases hoct : isOctal (c1 :: ds)
          · rw [if_pos hoct] at h
            simp only [Option.some.injEq] at h
            subst h
            have hz : isOctal ('0' :: c1 :: ds) := by
              intro c hc
              rcases List.mem_cons.mp hc with hc | hc
              · subst hc; decide
              · exact hoct c hc
            refine ⟨fun c hc => (octal_facts (hz c hc)).2.2.2.2, ?_⟩
            simp only [hx, and_false, if_false, if_true, parseDigits_oct _ hz 0, octVal]
            rfl
          · rw [if_neg hoct] at h
            cases h
    · -- decimal
      rw [if_neg h0] at h
      by_cases hdec : c0 ∈ "123456789".toList ∧ isDecimal rest
      · rw [if_pos hdec] at h
        simp only [Option.some.injEq] at h
        subst h
        have hc0 := nonzero_digit_facts hdec.1
        have hs : isDecimal (c0 :: rest) := by
          intro c hc
          rcases List.mem_cons.mp hc with hc | hc
          · subst hc; exact hc0.1
          · exact hdec.2 c hc
        have hf := digit_facts hc0.1
        refine ⟨fun c hc => decimal_data (hs c hc), ?_⟩
        cases rest with
        | nil =>
          rw [strtoul0_single p _ hf.2.2.1 hf.2.2.2.1 hf.2.2.2.2.1]
          simp only [h0, if_false, parseDigits_dec _ hs 0, decVal]
        | cons c1 ds =>
          rw [strtoul0_plain p _ _ _ hf.2.2.1 hf.2.2.2.1 hf.2.2.2.2.1]
          simp only [h0, false_and, if_false, parseDigits_dec _ hs 0, decVal]
      · rw [if_neg hdec] at h
        cases h

theorem literal_byte (p : Platform) (s : CStr) (v : Nat) (h : litValue s = some v)
    (hv : v < 256) : toUInt8 (strtoul0 p s) = v := by
  rw [(strtoul0_literal p s v h).2]
  have : min v (ULONG_MAX p) = v := by
    cases p <;> simp [ULONG_MAX, Platform.longBits] <;> omega
  rw [this]
  unfold toUInt8
  omega

/-! ## Fewer and more tokens than the length -/

theorem literal_tokens (p : Platform) (toks : List CStr) (vals : List Nat)
    (h : toks.map litValue = vals.map some) (hb : ∀ v ∈ vals, v < 256) :
    (∀ t ∈ toks, isDataToken t) ∧ toks.map (fun t => toUInt8 (strtoul0 p t)) = vals := by
  induction toks generalizing vals with
  | nil =>
    cases vals with
    | nil => simp
    | cons v vs => simp at h
  | cons t ts ih =>
    cases vals with
    | nil => simp at h
    | cons v vs =>
      simp only [List.map_cons, List.cons.injEq] at h
      obtain ⟨ht, hts⟩ := h
      obtain ⟨a, b⟩ := ih vs hts (fun x hx => hb x (List.mem_cons_of_mem _ hx))
      refine ⟨?_, ?_⟩
      · intro u hu
        rcases List.mem_cons.mp hu with hu | hu
        · subst hu; exact (strtoul0_literal p _ v ht).1
        · exact a u hu
      · simp only [List.map_cons, b, literal_byte p t v ht (hb v (List.mem_cons_self _ _))]

theorem literal_tokens_length (toks : List CStr) (vals : List Nat)
    (h : toks.map litValue = vals.map some) : vals.length = toks.length := by
  have := congrArg List.length h
  simpa using this.symm

/-- C9: a length `n` in 0..32 followed by `k < n` byte literals (valid options
may precede the length) is accepted, and the first `n` bytes of `wbuf` are the
values of the `k` literals, in order, followed by `n - k` zeros. -/
theorem missing_bytes_zero (p : Platform) (prog : CStr) (flags : List Flag) (ds : CStr)
    (toks : List CStr) (vals : List Nat) (hv : ∀ f ∈ flags, f.valid)
    (hds : isDecimal ds) (hlen : decVal ds ≤ 32) (hk : toks.length < decVal ds)
    (hvals : toks.map litValue = vals.map some) (hb : ∀ v ∈ vals, v < 256) :
    ∃ s, comparse p (prog :: (flags.map Flag.render ++ ds :: toks)) State.start
          = some (EXIT_SUCCESS, s)
      ∧ s.len = decVal ds
      ∧ s.wbuf.take s.len = vals ++ List.replicate (decVal ds - toks.length) 0 := by
  obtain ⟨ht, hmap⟩ := literal_tokens p toks vals hvals hb
  have hl := literal_tokens_length toks vals hvals
  have h32 : toks.length ≤ MAX_LEN := by simp only [MAX_LEN]; omega
  refine ⟨_, comparse_ok p prog flags ds toks hv hds hlen ht h32, rfl, ?_⟩
  simp only [hmap, List.take_append_eq_append_take, List.take_replicate, hl, MAX_LEN]
  rw [List.take_of_length_le (by omega), Nat.min_eq_left (by omega)]

/-- C9 at `spincl 3 0xAA`: the transmit bytes are `AA 00 00`. -/
theorem missing_bytes_zero_witness :
    ∃ s, comparse .ILP32 ["spincl".toList, "3".toList, "0xAA".toList] State.start
          = some (EXIT_SUCCESS, s)
      ∧ s.len = 3 ∧ s.wbuf.take s.len = [0xAA, 0x00, 0x00] :=
  missing_bytes_zero .ILP32 "spincl".toList [] "3".toList ["0xAA".toList] [0xAA]
    (by simp) (by unfold isDecimal; decide) (by decide) (by decide) (by decide) (by decide)

/-- C10, counterexample: a token beyond the length is not ignored. On
`spincl 2 1 2 zz` the third token is checked and `comparse` returns failure
with `Invalid data`; on `spincl 0` followed by thirty-three tokens `1` the
thirty-third is stored at `wbuf[32]`, outside the array. -/
theorem extra_tokens_counterexample :
    comparse .ILP32
        ["spincl".toList, "2".toList, "1".toList, "2".toList, "zz".toList] State.start
      = some (EXIT_FAILURE,
          { State.start with len := 2, wbuf := [1, 2] ++ List.replicate 30 0,
                             stderr := "Invalid data\n" })
    ∧ comparse .ILP32 ("spincl".toList :: "0".toList :: List.replicate 33 "1".toList)
        State.start = none := by
  refine ⟨rfl, rfl⟩

/-- C10, amended: a length `n` in 0..32 followed by more than `n` and at most
32 byte literals (valid options may precede the length) is accepted, and the
`n` bytes to transmit are the values of the first `n` literals; the values of
the other literals lie in `wbuf` behind them, outside the part transferred. -/
theorem extra_tokens_stored (p : Platform) (prog : CStr) (flags : List Flag) (ds : CStr)
    (toks : List CStr) (vals : List Nat) (hv : ∀ f ∈ flags, f.valid)
    (hds : isDecimal ds) (hlen : decVal ds ≤ 32) (hmore : decVal ds < toks.length)
    (hcap : toks.length ≤ 32)
    (hvals : toks.map litValue = vals.map some) (hb : ∀ v ∈ vals, v < 256) :
    ∃ s, comparse p (prog :: (flags.map Flag.render ++ ds :: toks)) State.start
          = some (EXIT_SUCCESS, s)
      ∧ s.len = decVal ds
      ∧ s.wbuf.take s.len = vals.take (decVal ds)
      ∧ s.wbuf = vals ++ List.replicate (32 - toks.length) 0 := by
  obtain ⟨ht, hmap⟩ := literal_tokens p toks vals hvals hb
  have hl := literal_tokens_length toks vals hvals
  refine ⟨_, comparse_ok p prog flags ds toks hv hds hlen ht hcap, rfl, ?_, ?_⟩
  · simp only [hmap, List.take_append_eq_append_take, hl]
    rw [show decVal ds - toks.length = 0 by omega]
    simp
  · simp only [hmap, MAX_LEN]

/-- C10, amended, at `spincl 2 1 2 3 4`: the transmit bytes are `01 02`. -/
theorem extra_tokens_stored_witness :
    ∃ s, comparse .ILP32
          ["spincl".toList, "2".toList, "1".toList, "2".toList, "3".toList, "4".toList]
          State.start = some (EXIT_SUCCESS, s)
      ∧ s.len = 2 ∧ s.wbuf.take s.len = [1, 2]
      ∧ s.wbuf = [1, 2, 3, 4] ++ List.replicate 28 0 :=
  extra_tokens_stored .ILP32 "spincl".toList [] "2".toList
    ["1".toList, "2".toList, "3".toList, "4".toList] [1, 2, 3, 4]
    (by simp) (by unfold isDecimal; decide) (by decide) (by decide) (by decide) (by decide)
    (by decide)

/-! ## The last option wins -/

theorem lastOf_snoc {α : Type} (sel : Flag → Option α) (dflt : α) (fs : List Flag) (f : Flag) :
    lastOf sel dflt (fs ++ [f]) = (sel f).getD (lastOf sel dflt fs) := by
  simp only [lastOf, List.reverse_append, List.reverse_cons, List.reverse_nil, List.nil_append,
    List.singleton_append, List.findSome?_cons]
  cases sel f <;> rfl

theorem foldl_apply_last (flags : List Flag) (s : State) :
    (flags.foldl Flag.apply s).init = lastOf Flag.initOf s.init flags
      ∧ (flags.foldl Flag.apply s).mode = lastOf Flag.modeOf s.mode flags
      ∧ (flags.foldl Flag.apply s).clk_div = lastOf Flag.clkOf s.clk_div flags
      ∧ (flags.foldl Flag.apply s).cs = lastOf Flag.csOf s.cs flags
      ∧ (flags.foldl Flag.apply s).polarity = lastOf Flag.polarityOf s.polarity flags := by
  induction flags using List.reverseRecOn with
  | nil => exact ⟨rfl, rfl, rfl, rfl, rfl⟩
  | append_singleton fs f ih =>
    obtain ⟨a, b, c, d, e⟩ := ih
    simp only [List.foldl_append, List.foldl_cons, List.foldl_nil, lastOf_snoc]
    cases f <;> exact ⟨by simp [Flag.apply, Flag.initOf, a], by simp [Flag.apply, Flag.modeOf, b],
      by simp [Flag.apply, Flag.clkOf, c], by simp [Flag.apply, Flag.csOf, d],
      by simp [Flag.apply, Flag.polarityOf, e]⟩

theorem lastOf_init_ne (flags : List Flag) (hi : ∃ f ∈ flags, f = Flag.ib ∨ f = Flag.ie) :
    lastOf Flag.initOf spi_init.NO_ACTION flags = .SPI_BEGIN
      ∨ lastOf Flag.initOf spi_init.NO_ACTION flags = .SPI_END := by
  induction flags using List.reverseRecOn with
  | nil => obtain ⟨f, hf, -⟩ := hi; cases hf
  | append_singleton fs f ih =>
    rw [lastOf_snoc]
    cases f with
    | ib => exact Or.inl rfl
    | ie => exact Or.inr rfl
    | m d | c ds | s d | p d =>
      simp only [Flag.initOf, Option.getD_none]
      apply ih
      obtain ⟨g, hg, hg2⟩ := hi
      rcases List.mem_append.mp hg with h | h
      · exact ⟨g, h, hg2⟩
      · simp only [List.mem_singleton] at h
        subst h
        rcases hg2 with h | h <;> cases h

theorem state_eq_of_fields (a b : State) (h1 : a.rbuf = b.rbuf) (h2 : a.wbuf = b.wbuf)
    (h3 : a.len = b.len) (h4 : a.init = b.init) (h5 : a.mode = b.mode)
    (h6 : a.clk_div = b.clk_div) (h7 : a.cs = b.cs) (h8 : a.polarity = b.polarity)
    (h9 : a.stderr = b.stderr) (h10 : a.stdout = b.stdout) (h11 : a.calls = b.calls) :
    a = b := by
  cases a; cases b; simp_all

theorem foldl_apply_perm (a b : List Flag) (hp : a.Perm b)
    (hnd : (b.map Flag.letter).Nodup) (s : State) :
    a.foldl Flag.apply s = b.foldl Flag.apply s := by
  have hnda : (a.map Flag.letter).Nodup := (hp.map Flag.letter).nodup_iff.mpr hnd
  have hm : ∀ f, f ∈ a ↔ f ∈ b := fun f => hp.mem_iff
  obtain ⟨ai1, ai2, ai3, am1, am2, ac1, ac2, as1, as2, ap1, ap2, a1, a2, a3, a4, a5, a6⟩ :=
    foldl_apply_fields a hnda s
  obtain ⟨bi1, bi2, bi3, bm1, bm2, bc1, bc2, bs1, bs2, bp1, bp2, b1, b2, b3, b4, b5, b6⟩ :=
    foldl_apply_fields b hnd s
  apply state_eq_of_fields
  · exact a3.trans b3.symm
  · exact a2.trans b2.symm
  · exact a1.trans b1.symm
  · by_cases h1 : Flag.ib ∈ a
    · exact (ai1 h1).trans (bi1 ((hm _).mp h1)).symm
    · by_cases h2 : Flag.ie ∈ a
      · exact (ai2 h2).trans (bi2 ((hm _).mp h2)).symm
      · exact (ai3 h1 h2).trans
          (bi3 (fun h => h1 ((hm _).mpr h)) (fun h => h2 ((hm _).mpr h))).symm
  · by_cases h : ∃ d, Flag.m d ∈ a
    · obtain ⟨d, hd⟩ := h
      exact (am1 d hd).trans (bm1 d ((hm _).mp hd)).symm
    · exact (am2 (fun d hd => h ⟨d, hd⟩)).trans
        (bm2 (fun d hd => h ⟨d, (hm _).mpr hd⟩)).symm
  · by_cases h : ∃ d, Flag.c d ∈ a
    · obtain ⟨d, hd⟩ := h
      exact (ac1 d hd).trans (bc1 d ((hm _).mp hd)).symm
    · exact (ac2 (fun d hd => h ⟨d, hd⟩)).trans
        (bc2 (fun d hd => h ⟨d, (hm _).mpr hd⟩)).symm
  · by_cases h : ∃ d, Flag.s d ∈ a
    · obtain ⟨d, hd⟩ := h
      exact (as1 d hd).trans (bs1 d ((hm _).mp hd)).symm
    · exact (as2 (fun d hd => h ⟨d, hd⟩)).trans
        (bs2 (fun d hd => h ⟨d, (hm _).mpr hd⟩)).symm
  · by_cases h : ∃ d, Flag.p d ∈ a
    · obtain ⟨d, hd⟩ := h
      exact (ap1 d hd).trans (bp1 d ((hm _).mp hd)).symm
    · exact (ap2 (fun d hd => h ⟨d, hd⟩)).trans
        (bp2 (fun d hd => h ⟨d, (hm _).mpr hd⟩)).symm
  · exact a4.trans b4.symm
  · exact a5.trans b5.symm
  · exact a6.trans b6.symm

/-- Valid options in front of anything: `comparse` goes through them and
continues with the rest. -/
theorem comparse_flags_then (p : Platform) (prog : CStr) (flags : List Flag)
    (rest : List CStr) (hv : ∀ f ∈ flags, f.valid) (hne : flags ≠ [] ∨ rest ≠ []) :
    comparse p (prog :: (flags.map Flag.render ++ rest)) State.start
      = flagLoop p rest (flags.foldl Flag.apply State.start) := by
  have hlen2 : ¬ ((prog :: (flags.map Flag.render ++ rest)).length < 2) := by
    simp only [List.length_cons, List.length_append, List.length_map]
    rcases hne with h | h
    · have := List.length_pos.mpr h; omega
    · have := List.length_pos.mpr h; omega
  rw [comparse, if_neg hlen2, List.drop_one, List.tail_cons, flagLoop_render p flags hv]

theorem xmitLoop_fields {p : Platform} {toks : List CStr} {i : Nat} {s s1 : State}
    {code : Int} (h : xmitLoop p toks i s = some (code, s1)) :
    s1.init = s.init ∧ s1.mode = s.mode ∧ s1.clk_div = s.clk_div ∧ s1.cs = s.cs
      ∧ s1.polarity = s.polarity := by
  induction toks generalizing i s with
  | nil =>
    simp only [xmitLoop, Option.some.injEq, Prod.mk.injEq] at h
    obtain ⟨-, h2⟩ := h
    subst h2
    exact ⟨rfl, rfl, rfl, rfl, rfl⟩
  | cons tok rest ih =>
    simp only [xmitLoop] at h
    split_ifs at h with h1 h2
    · simp only [Option.some.injEq, Prod.mk.injEq] at h
      obtain ⟨-, h2⟩ := h
      subst h2
      exact ⟨rfl, rfl, rfl, rfl, rfl⟩
    · have := ih h
      exact this

theorem parseTail_fields {p : Platform} {rest : List CStr} {s s1 : State} {code : Int}
    (h : parseTail p rest s = some (code, s1)) :
    s1.init = s.init ∧ s1.mode = s.mode ∧ s1.clk_div = s.clk_div ∧ s1.cs = s.cs
      ∧ s1.polarity = s.polarity := by
  unfold parseTail at h
  split_ifs at h with h0
  · simp only [Option.some.injEq, Prod.mk.injEq] at h
    obtain ⟨-, h2⟩ := h
    subst h2
    exact ⟨rfl, rfl, rfl, rfl, rfl⟩
  · cases rest with
    | nil => cases h
    | cons lenArg toks =>
      simp only at h
      split_ifs at h with h1 h2
      · simp only [Option.some.injEq, Prod.mk.injEq] at h
        obtain ⟨-, h2⟩ := h
        subst h2
        exact ⟨rfl, rfl, rfl, rfl, rfl⟩
      · simp only [Option.some.injEq, Prod.mk.injEq] at h
        obtain ⟨-, h2⟩ := h
        subst h2
        exact ⟨rfl, rfl, rfl, rfl, rfl⟩
      · have := xmitLoop_fields h
        exact this

/-- Whatever `comparse` returns after valid options, the five option fields
are as the options left them. -/
theorem comparse_fields_after_flags (p : Platform) (prog : CStr) (flags : List Flag)
    (rest : List CStr) (code : Int) (s : State) (hv : ∀ f ∈ flags, f.valid)
    (hrest : ∀ a, rest.head? = some a → charAt a 0 ≠ '-')
    (h : comparse p (prog :: (flags.map Flag.render ++ rest)) State.start = some (code, s)) :
    s.init = lastOf Flag.initOf spi_init.NO_ACTION flags
      ∧ s.mode = lastOf Flag.modeOf BCM2835_SPI_MODE0 flags
      ∧ s.clk_div = lastOf Flag.clkOf BCM2835_SPI_CLOCK_DIVIDER_65536 flags
      ∧ s.cs = lastOf Flag.csOf BCM2835_SPI_CS0 flags
      ∧ s.polarity = lastOf Flag.polarityOf LOW flags := by
  obtain ⟨a, b, c, d, e⟩ := foldl_apply_last flags State.start
  by_cases hne : flags ≠ [] ∨ rest ≠ []
  · rw [comparse_flags_then p prog flags rest hv hne] at h
    have hpt : flagLoop p rest (flags.foldl Flag.apply State.start)
        = parseTail p rest (flags.foldl Flag.apply State.start) := by
      cases rest with
      | nil => rfl
      | cons x xs => simp only [flagLoop, if_neg (hrest x rfl)]
    rw [hpt] at h
    obtain ⟨a1, b1, c1, d1, e1⟩ := parseTail_fields h
    exact ⟨a1.trans a, b1.trans b, c1.trans c, d1.trans d, e1.trans e⟩
  · have h1 : flags = [] := by
      by_contra hc; exact hne (Or.inl hc)
    have h2 : rest = [] := by
      by_contra hc; exact hne (Or.inr hc)
    subst h1; subst h2
    simp only [List.map_nil, List.append_nil, comparse, List.length_singleton,
      Nat.one_lt_ofNat, if_true, Option.some.injEq, Prod.mk.injEq] at h
    obtain ⟨-, hs⟩ := h
    subst hs
    exact ⟨rfl, rfl, rfl, rfl, rfl⟩

/-- The last option wins while the data tokens fit into `wbuf`: with valid
options (letters may repeat), a length in 0..32 and at
most 32 data tokens, `comparse` succeeds and each of `init`, `mode`,
`clk_div`, `cs`, `polarity` is the value given by the last option that
carries it, or its initial value when no option does; and whatever follows
the options, the same holds for the state with which `comparse` returns,
with success or with failure. Options with pairwise distinct letters can be
put in any order without changing what `comparse` returns, whatever follows
them. `spincl -ib -ie` is accepted with `init = SPI_END` and
`spincl -ie -ib` with `init = SPI_BEGIN`. -/
theorem last_flag_wins (p : Platform) (prog : CStr) (flags : List Flag)
    (hv : ∀ f ∈ flags, f.valid) :
    (∀ (ds : CStr) (toks : List CStr), isDecimal ds → decVal ds ≤ 32 →
        (∀ t ∈ toks, isDataToken t) → toks.length ≤ MAX_LEN →
        ∃ s, comparse p (prog :: (flags.map Flag.render ++ ds :: toks)) State.start
              = some (EXIT_SUCCESS, s)
          ∧ s.init = lastOf Flag.initOf spi_init.NO_ACTION flags
          ∧ s.mode = lastOf Flag.modeOf BCM2835_SPI_MODE0 flags
          ∧ s.clk_div = lastOf Flag.clkOf BCM2835_SPI_CLOCK_DIVIDER_65536 flags
          ∧ s.cs = lastOf Flag.csOf BCM2835_SPI_CS0 flags
          ∧ s.polarity = lastOf Flag.polarityOf LOW flags)
    ∧ (∀ (rest : List CStr) (code : Int) (s : State),
        (∀ a, rest.head? = some a → charAt a 0 ≠ '-') →
        comparse p (prog :: (flags.map Flag.render ++ rest)) State.start = some (code, s) →
        s.init = lastOf Flag.initOf spi_init.NO_ACTION flags
          ∧ s.mode = lastOf Flag.modeOf BCM2835_SPI_MODE0 flags
          ∧ s.clk_div = lastOf Flag.clkOf BCM2835_SPI_CLOCK_DIVIDER_65536 flags
          ∧ s.cs = lastOf Flag.csOf BCM2835_SPI_CS0 flags
          ∧ s.polarity = lastOf Flag.polarityOf LOW flags)
    ∧ (∀ (flags2 : List Flag) (rest : List CStr), flags2.Perm flags →
        (flags.map Flag.letter).Nodup →
        comparse p (prog :: (flags2.map Flag.render ++ rest)) State.start
          = comparse p (prog :: (flags.map Flag.render ++ rest)) State.start)
    ∧ comparse p [prog, "-ib".toList, "-ie".toList] State.start
        = some (EXIT_SUCCESS, { State.start with init := spi_init.SPI_END })
    ∧ comparse p [prog, "-ie".toList, "-ib".toList] State.start
        = some (EXIT_SUCCESS, { State.start with init := spi_init.SPI_BEGIN }) := by
  refine ⟨?_, ?_, ?_, rfl, rfl⟩
  · intro ds toks hds hlen ht hk
    obtain ⟨a, b, c, d, e⟩ := foldl_apply_last flags State.start
    exact ⟨_, comparse_ok p prog flags ds toks hv hds hlen ht hk, a, b, c, d, e⟩
  · intro rest code s hrest h
    exact comparse_fields_after_flags p prog flags rest code s hv hrest h
  · intro flags2 rest hp hnd
    have hv2 : ∀ f ∈ flags2, f.valid := fun f hf => hv f (hp.mem_iff.mp hf)
    by_cases hne : flags ≠ [] ∨ rest ≠ []
    · have hne2 : flags2 ≠ [] ∨ rest ≠ [] := by
        rcases hne with h | h
        · left
          intro h2
          subst h2
          exact h hp.symm.eq_nil
        · exact Or.inr h
      rw [comparse_flags_then p prog flags rest hv hne,
        comparse_flags_then p prog flags2 rest hv2 hne2, foldl_apply_perm flags2 flags hp hnd]
    · have h1 : flags = [] := by
        by_contra h; exact hne (Or.inl h)
      subst h1
      rw [hp.eq_nil]

/-- The last option wins at `spincl -ie -s2 -ib -s1 2 7`, and at `-p1 -m2`
against `-m2 -p1`. -/
theorem last_flag_wins_witness :
    (∃ s, comparse .ILP32
            ["spincl".toList, "-ie".toList, "-s2".toList, "-ib".toList, "-s1".toList,
              "2".toList, "7".toList] State.start = some (EXIT_SUCCESS, s)
        ∧ s.init = .SPI_BEGIN ∧ s.cs = 1 ∧ s.mode = 0)
    ∧ comparse .ILP32 ["spincl".toList, "-p1".toList, "-m2".toList, "1".toList] State.start
        = comparse .ILP32 ["spincl".toList, "-m2".toList, "-p1".toList, "1".toList]
            State.start := by
  refine ⟨?_, ?_⟩
  · obtain ⟨s, h, a, b, -, d, -⟩ :=
      (last_flag_wins .ILP32 "spincl".toList [Flag.ie, Flag.s 2, Flag.ib, Flag.s 1]
        (by simp [Flag.valid])).1 "2".toList ["7".toList] (by unfold isDecimal; decide)
        (by decide) (by unfold isDataToken; decide) (by decide)
    exact ⟨s, h, a, d, b⟩
  · exact (last_flag_wins .ILP32 "spincl".toList [Flag.m 2, Flag.p 1]
      (by simp [Flag.valid])).2.2.1 [Flag.p 1, Flag.m 2] ["1".toList]
      (List.Perm.swap _ _ _) (by decide)

/-! ## Bus control only -/

/-- What `main` does once `comparse` has returned success with `len = 0`. -/
theorem main_no_transfer (w : World) (argv : List CStr) (s : State)
    (hinit : w.initOk = true)
    (hparse : comparse w.plat argv State.start = some (EXIT_SUCCESS, s))
    (h0 : s.len = 0) :
    ∃ s1, main w argv = some (EXIT_SUCCESS, s1)
      ∧ s1.calls = [DriverCall.bcm2835_init]
          ++ (if s.init = .SPI_BEGIN then [DriverCall.bcm2835_spi_begin] else [])
          ++ (if s.init = .SPI_END then [DriverCall.bcm2835_spi_end] else [])
      ∧ s1.stdout = "" := by
  obtain ⟨-, hcalls, hout, -, -⟩ := comparse_frame hparse
  have hnil : s.calls = [] := hcalls
  have hempty : s.stdout = "" := hout
  have hfail : ¬ (EXIT_SUCCESS = EXIT_FAILURE) := by decide
  cases hin : s.init <;>
    exact ⟨_, by simp [main, hparse, hfail, hinit, h0, hin, State.call]; rfl,
      by simp [hnil, hin], by simp [hempty, hin]⟩

/-- C15: an argument list of valid options only, with `-ib` or `-ie` among
them, is accepted with `len = 0`; when `bcm2835_init` succeeds, `main` then
returns success having called `bcm2835_init` and the one pin function the
last `-i` option asks for (`bcm2835_spi_begin` for `-ib`, `bcm2835_spi_end`
for `-ie`) and nothing else, and has printed nothing. -/
theorem bus_control_only (w : World) (prog : CStr) (flags : List Flag)
    (hv : ∀ f ∈ flags, f.valid) (hi : ∃ f ∈ flags, f = Flag.ib ∨ f = Flag.ie) :
    ∃ s, comparse w.plat (prog :: flags.map Flag.render) State.start = some (EXIT_SUCCESS, s)
      ∧ s.len = 0
      ∧ (w.initOk = true →
          ∃ s1, main w (prog :: flags.map Flag.render) = some (EXIT_SUCCESS, s1)
            ∧ s1.calls =
                [DriverCall.bcm2835_init,
                 if lastOf Flag.initOf spi_init.NO_ACTION flags = .SPI_BEGIN
                 then DriverCall.bcm2835_spi_begin else DriverCall.bcm2835_spi_end]
            ∧ s1.stdout = "") := by
  have hne : flags ≠ [] := by
    obtain ⟨f, hf, -⟩ := hi
    exact List.ne_nil_of_mem hf
  have hlast : (flags.foldl Flag.apply State.start).init
      = lastOf Flag.initOf spi_init.NO_ACTION flags := (foldl_apply_last flags State.start).1
  have hcases := lastOf_init_ne flags hi
  have hparse : comparse w.plat (prog :: flags.map Flag.render) State.start
      = some (EXIT_SUCCESS, flags.foldl Flag.apply State.start) := by
    have h := comparse_flags_then w.plat prog flags [] hv (Or.inl hne)
    rw [List.append_nil] at h
    rw [h]
    have hnn : (flags.foldl Flag.apply State.start).init ≠ spi_init.NO_ACTION := by
      rw [hlast]
      rcases hcases with h | h <;> rw [h] <;> exact fun h2 => by cases h2
    simp [flagLoop, parseTail, hnn]
  have hlen : (flags.foldl Flag.apply State.start).len = 0 :=
    (foldl_apply_frame flags State.start).1
  refine ⟨_, hparse, hlen, ?_⟩
  intro hinit
  obtain ⟨s1, h1, h2, h3⟩ := main_no_transfer w _ _ hinit hparse hlen
  refine ⟨s1, h1, ?_, h3⟩
  rw [h2, hlast]
  rcases hcases with h | h <;> simp [h]

/-- C15 at `spincl -ib`: only the claim step. -/
theorem bus_control_only_witness :
    ∃ s1, main ⟨.ILP32, "1.3.1", true, fun _ => 0⟩ ["spincl".toList, "-ib".toList]
          = some (EXIT_SUCCESS, s1)
      ∧ s1.calls = [DriverCall.bcm2835_init, DriverCall.bcm2835_spi_begin]
      ∧ s1.stdout = "" := by
  obtain ⟨s, -, -, h⟩ := bus_control_only ⟨.ILP32, "1.3.1", true, fun _ => 0⟩
    "spincl".toList [Flag.ib] (by simp [Flag.valid]) ⟨Flag.ib, by simp, Or.inl rfl⟩
  exact h rfl

/-! ## More tokens than the buffer holds -/

theorem xmitLoop_overflow (p : Platform) (toks : List CStr) (i : Nat) (s : State)
    (hv : ∀ t ∈ toks, isDataToken t) (hi : i ≤ MAX_LEN) (hb : MAX_LEN < i + toks.length) :
    xmitLoop p toks i s = none := by
  induction toks generalizing i s with
  | nil => simp only [List.length_nil] at hb; omega
  | cons t ts ih =>
    have ht : strspn t "0123456789abcdefABCDEFxX".toList = strlen t :=
      strspn_of_all (hv t (List.mem_cons_self _ _))
    have hts : ∀ u ∈ ts, isDataToken u := fun u hu => hv u (List.mem_cons_of_mem _ hu)
    simp only [xmitLoop, ht, ne_eq, not_true_eq_false, if_false]
    by_cases h32 : i < MAX_LEN
    · rw [if_pos h32]
      exact ih (i + 1) _ hts h32 (by simp only [List.length_cons] at hb; omega)
    · rw [if_neg h32]

/-- More than 32 data tokens after a valid length: `comparse` stores the
thirty-third at `wbuf[32]`. -/
theorem too_many_tokens (p : Platform) (prog : CStr) (flags : List Flag) (ds : CStr)
    (toks : List CStr) (hv : ∀ f ∈ flags, f.valid) (hds : isDecimal ds)
    (hlen : decVal ds ≤ 32) (ht : ∀ t ∈ toks, isDataToken t) (hk : MAX_LEN < toks.length) :
    comparse p (prog :: (flags.map Flag.render ++ ds :: toks)) State.start = none := by
  rw [comparse_flags_then p prog flags _ hv (Or.inr (by simp)), flagLoop,
    if_neg (decimal_no_dash ds hds), parseTail_len p ds hds hlen,
    xmitLoop_overflow p toks 0 _ ht (by decide) (by omega)]

/-- C18, failing input: on `spincl 32` followed by thirty-three tokens
`0xff` the loop of `comparse` reaches `i = 32` and stores to `wbuf[32]`,
outside the array of `MAX_LEN` bytes; with thirty-two tokens every store is
inside. -/
theorem transmit_store_out_of_bounds :
    comparse .ILP32 ("spincl".toList :: "32".toList :: List.replicate 33 "0xff".toList)
        State.start = none
      ∧ comparse .LP64 ("spincl".toList :: "32".toList :: List.replicate 33 "0xff".toList)
        State.start = none
      ∧ comparse .ILP32 ("spincl".toList :: "32".toList :: List.replicate 32 "0xff".toList)
        State.start
        = some (EXIT_SUCCESS, { State.start with len := 32, wbuf := List.replicate 32 255 }) := by
  refine ⟨rfl, rfl, rfl⟩

/-! ## Tokens that are not data -/

theorem xmitLoop_bad (p : Platform) (good : List CStr) (bad : CStr) (more : List CStr)
    (i : Nat) (s : State) (hv : ∀ t ∈ good, isDataToken t) (hb : i + good.length ≤ MAX_LEN)
    (hbad : ∃ c ∈ bad, c ∉ "0123456789abcdefABCDEFxX".toList) :
    ∃ s1, xmitLoop p (good ++ bad :: more) i s = some (EXIT_FAILURE, s1)
      ∧ s1.stderr = s.stderr ++ "Invalid data\n" := by
  induction good generalizing i s with
  | nil =>
    obtain ⟨c, hc, hnot⟩ := hbad
    have h1 : strspn bad "0123456789abcdefABCDEFxX".toList ≠ strlen bad :=
      strspn_of_bad hc hnot
    refine ⟨s.eprint "Invalid data\n", ?_, rfl⟩
    simp only [List.nil_append, xmitLoop, h1, ne_eq, not_false_eq_true, if_true]
  | cons t ts ih =>
    have ht : strspn t "0123456789abcdefABCDEFxX".toList = strlen t :=
      strspn_of_all (hv t (List.mem_cons_self _ _))
    have hts : ∀ u ∈ ts, isDataToken u := fun u hu => hv u (List.mem_cons_of_mem _ hu)
    have hi : i < MAX_LEN := by simp only [List.length_cons] at hb; omega
    simp only [List.cons_append, xmitLoop, ht, ne_eq, not_true_eq_false, if_false, hi, if_true]
    exact ih (i + 1) _ hts (by simp only [List.length_cons] at hb; omega)

/-- A token with a character outside the alphabet of numeric literals, with
at most 32 data tokens in front of it: `comparse` returns failure with
`Invalid data`. -/
theorem invalid_data_token (p : Platform) (prog : CStr) (flags : List Flag) (ds : CStr)
    (good : List CStr) (bad : CStr) (more : List CStr) (hv : ∀ f ∈ flags, f.valid)
    (hds : isDecimal ds) (hlen : decVal ds ≤ 32) (ht : ∀ t ∈ good, isDataToken t)
    (hk : good.length ≤ MAX_LEN)
    (hbad : ∃ c ∈ bad, c ∉ "0123456789abcdefABCDEFxX".toList) :
    ∃ s, comparse p (prog :: (flags.map Flag.render ++ ds :: (good ++ bad :: more)))
          State.start = some (EXIT_FAILURE, s)
      ∧ s.stderr = "Invalid data\n" := by
  rw [comparse_flags_then p prog flags _ hv (Or.inr (by simp)), flagLoop,
    if_neg (decimal_no_dash ds hds), parseTail_len p ds hds hlen]
  obtain ⟨s1, h1, h2⟩ := xmitLoop_bad p good bad more 0
    { flags.foldl Flag.apply State.start with
      len := decVal ds, wbuf := List.replicate MAX_LEN 0 } ht (by omega) hbad
  refine ⟨s1, h1, ?_⟩
  rw [h2]
  simp only [(foldl_apply_frame flags State.start).2.2.2.1]
  rfl

/-! ## The value of a literal -/

theorem toUInt8_saturated (p : Platform) (v : Nat) :
    toUInt8 ((min v (ULONG_MAX p) : Nat) : Int)
      = if v ≤ ULONG_MAX p then v % 256 else 255 := by
  unfold toUInt8
  cases p <;> simp only [ULONG_MAX, Platform.longBits] <;> split <;> omega

/-- C11, counterexample: the literal `0x10000000000000000` has the value
2^64, whose low 8 bits are 0, and `0x100000000` the value 2^32; `strtoul`
replaces a value above `ULONG_MAX` by `ULONG_MAX`, and the byte stored is
255. -/
theorem literal_low_byte_counterexample :
    litValue "0x10000000000000000".toList = some 18446744073709551616
      ∧ 18446744073709551616 % 256 = 0
      ∧ comparse .LP64 ["spincl".toList, "1".toList, "0x10000000000000000".toList] State.start
          = some (EXIT_SUCCESS,
              { State.start with len := 1, wbuf := 255 :: List.replicate 31 0 })
      ∧ litValue "0x100000000".toList = some 4294967296
      ∧ 4294967296 % 256 = 0
      ∧ comparse .ILP32 ["spincl".toList, "1".toList, "0x100000000".toList] State.start
          = some (EXIT_SUCCESS,
              { State.start with len := 1, wbuf := 255 :: List.replicate 31 0 }) := by
  refine ⟨by decide, by decide, rfl, by decide, by decide, rfl⟩

/-- C11, amended: among at most 32 data tokens after a valid length, a token
that is a well-formed literal of value `v` is stored in `wbuf`, at its own
position, as `v mod 256` when `v` is at most `ULONG_MAX`, and as 255 when it
is larger. -/
theorem literal_low_byte (p : Platform) (prog : CStr) (flags : List Flag) (ds : CStr)
    (toks : List CStr) (hv : ∀ f ∈ flags, f.valid) (hds : isDecimal ds)
    (hlen : decVal ds ≤ 32) (ht : ∀ t ∈ toks, isDataToken t) (hk : toks.length ≤ MAX_LEN) :
    ∃ s, comparse p (prog :: (flags.map Flag.render ++ ds :: toks)) State.start
          = some (EXIT_SUCCESS, s)
      ∧ ∀ (i : Nat) (t : CStr) (v : Nat), toks[i]? = some t → litValue t = some v →
          s.wbuf[i]? = some (if v ≤ ULONG_MAX p then v % 256 else 255) := by
  refine ⟨_, comparse_ok p prog flags ds toks hv hds hlen ht hk, ?_⟩
  intro i t v hi hlit
  have hlt : i < toks.length := by
    rcases Nat.lt_or_ge i toks.length with h | h
    · exact h
    · rw [List.getElem?_eq_none h] at hi; cases hi
  simp only
  rw [List.getElem?_append_left (by simpa using hlt), List.getElem?_map, hi, Option.map_some',
    (strtoul0_literal p t v hlit).2, toUInt8_saturated]

/-- C11, amended, at `spincl 2 010 0x1fe`: the bytes are 8 and 254. -/
theorem literal_low_byte_witness :
    ∃ s, comparse .ILP32 ["spincl".toList, "2".toList, "010".toList, "0x1fe".toList]
          State.start = some (EXIT_SUCCESS, s)
      ∧ s.wbuf[0]? = some 8 ∧ s.wbuf[1]? = some 254 := by
  obtain ⟨s, h, hw⟩ := literal_low_byte .ILP32 "spincl".toList [] "2".toList
    ["010".toList, "0x1fe".toList] (by simp) (by unfold isDecimal; decide) (by decide)
    (by unfold isDataToken; decide) (by decide)
  exact ⟨s, h, hw 0 "010".toList 8 rfl (by decide), hw 1 "0x1fe".toList 510 rfl (by decide)⟩

/-! ## Option tokens with more after the value -/

theorem decimal_of_range (c : Char) (h1 : 48 ≤ c.toNat) (h2 : c.toNat ≤ 57) :
    c ∈ "0123456789".toList := by
  have hc := Char.ofNat_toNat c
  generalize c.toNat = n at *
  interval_cases n <;> subst hc <;> decide

theorem decimal_of_digitVal (c : Char) (h : digitVal c < 10) : c ∈ "0123456789".toList := by
  unfold digitVal at h
  simp only at h
  split_ifs at h with h1 h2 h3
  · exact decimal_of_range c h1.1 h1.2
  · omega
  · omega
  · omega

theorem parseDigits_append_stop (b : Nat) (a t : CStr) (ha : ∀ c ∈ a, digitVal c < b)
    (ht : ∀ c, t.head? = some c → ¬ digitVal c < b) (acc : Nat) :
    parseDigits b (a ++ t) acc = parseDigits b a acc := by
  induction a generalizing acc with
  | nil =>
    cases t with
    | nil => rfl
    | cons c cs => simp only [List.nil_append, parseDigits, if_neg (ht c rfl)]
  | cons c cs ih =>
    simp only [List.cons_append, parseDigits, if_pos (ha c (List.mem_cons_self _ _))]
    exact ih (fun d hd => ha d (List.mem_cons_of_mem _ hd)) _

theorem atoi_digit_run (p : Platform) (ds tail : CStr) (hne : ds ≠ []) (hds : isDecimal ds)
    (ht : ∀ c, tail.head? = some c → c ∉ "0123456789".toList)
    (hv : decVal ds < 2147483648) : atoi p (ds ++ tail) = decVal ds := by
  cases ds with
  | nil => exact absurd rfl hne
  | cons d ds =>
    have hd := digit_facts (hds d (List.mem_cons_self _ _))
    have h1 : skipSpace (d :: ds ++ tail) = d :: ds ++ tail := by
      simp [skipSpace, List.dropWhile, hd.2.2.1]
    have h2 : takeSign (d :: ds ++ tail) = (false, d :: ds ++ tail) := by
      simp [takeSign, hd.2.2.2.1, hd.2.2.2.2.1]
    have h3 : parseDigits 10 (d :: ds ++ tail) 0 = decVal (d :: ds) := by
      rw [parseDigits_append_stop 10 (d :: ds) tail
        (fun c hc => (digit_facts (hds c hc)).2.1)
        (fun c hc hlt => ht c hc (decimal_of_digitVal c hlt)) 0, parseDigits_dec _ hds 0]
      rfl
    have h4 : min ((decVal (d :: ds) : Nat) : Int) (LONG_MAX p) = decVal (d :: ds) := by
      cases p <;> simp [LONG_MAX, Platform.longBits] <;> omega
    simp only [atoi, strtol10, h1, h2, h3, Bool.false_eq_true, if_false, h4]
    unfold toInt32
    omega

theorem flagLoop_next {p : Platform} {tok : CStr} {s s1 : State} (rest : List CStr)
    (hd : charAt tok 0 = '-') (h : flagStep p tok s = .next s1) :
    flagLoop p (tok :: rest) s = flagLoop p rest s1 := by
  simp only [flagLoop, hd, if_true, h]

theorem flagLoop_ret {p : Platform} {tok : CStr} {s s1 : State} {code : Int}
    (rest : List CStr) (hd : charAt tok 0 = '-') (h : flagStep p tok s = .ret code s1) :
    flagLoop p (tok :: rest) s = some (code, s1) := by
  simp only [flagLoop, hd, if_true, h]

/-- The step of the option loop on `-m`, `-s` or `-p` with a valid digit and
anything after it. -/
theorem flagStep_digit_tail (p : Platform) (f : Flag) (tail : CStr) (s : State)
    (hf : f.valid) (hl : f.letter = 'm' ∨ f.letter = 's' ∨ f.letter = 'p') :
    flagStep p (f.render ++ tail) s = .next (f.apply s) := by
  cases f with
  | ib => rcases hl with h | h | h <;> cases h
  | ie => rcases hl with h | h | h <;> cases h
  | c ds => rcases hl with h | h | h <;> cases h
  | m d =>
    have hd : d ≤ 3 := hf
    interval_cases d <;> rfl
  | s d =>
    have hd : d ≤ 3 := hf
    interval_cases d <;> rfl
  | p d =>
    have hd : d ≤ 1 := hf
    interval_cases d <;> rfl

/-- The step of the option loop on `-c` followed by decimal digits of value
at most 15 and then anything that does not begin with a digit. -/
theorem flagStep_clock_tail (p : Platform) (ds tail : CStr) (s : State) (hne : ds ≠ [])
    (hds : isDecimal ds) (ht : ∀ c, tail.head? = some c → c ∉ "0123456789".toList)
    (hv : decVal ds ≤ 15) :
    flagStep p ('-' :: 'c' :: (ds ++ tail)) s = .next ((Flag.c ds).apply s) := by
  have ha := atoi_digit_run p ds tail hne hds ht (by omega)
  cases ds with
  | nil => exact absurd rfl hne
  | cons d ds =>
    have hd := digit_facts (hds d (List.mem_cons_self _ _))
    have h1 : charAt ('-' :: 'c' :: (d :: ds ++ tail)) 1 = 'c' := rfl
    have h2 : charAt ('-' :: 'c' :: (d :: ds ++ tail)) 2 = d := rfl
    have h3 : List.drop 2 ('-' :: 'c' :: (d :: ds ++ tail)) = d :: ds ++ tail := rfl
    have h4 : ¬ (charVal p d.toNat < (('0').toNat : Int)) := by
      have h48 : ('0').toNat = 48 := rfl
      rw [charVal_small p _ (by omega), h48]
      omega
    have h5 : ¬ ((decVal (d :: ds) : Int) > 15) := by omega
    have h6 : ¬ ((decVal (d :: ds) : Int) < 0) := by omega
    simp only [flagStep, Flag.apply, h1, h2, h3, ha, h4, h5, h6, false_or,
      if_false, Int.toNat_ofNat, shift_u16 _ hv]
    simp

/-- The step of the option loop on `-c` followed by decimal digits of a value
above 15 that fits in an `int`. -/
theorem flagStep_clock_range (p : Platform) (ds tail : CStr) (s : State) (hne : ds ≠ [])
    (hds : isDecimal ds) (ht : ∀ c, tail.head? = some c → c ∉ "0123456789".toList)
    (hbig : 15 < decVal ds) (hv : decVal ds < 2147483648) :
    flagStep p ('-' :: 'c' :: (ds ++ tail)) s
      = .ret EXIT_FAILURE (s.eprint "Invalid clock divider exponent\n") := by
  have ha := atoi_digit_run p ds tail hne hds ht hv
  have h1 : charAt ('-' :: 'c' :: (ds ++ tail)) 1 = 'c' := rfl
  have h3 : List.drop 2 ('-' :: 'c' :: (ds ++ tail)) = ds ++ tail := rfl
  have h5 : (decVal ds : Int) > 15 := by omega
  simp only [flagStep, h1, h3, ha, h5, or_true, if_true]
  simp

/-- The step of the option loop on `-c` with nothing after it or with a
character below `0` after it. -/
theorem flagStep_clock_low (p : Platform) (suffix : CStr) (s : State)
    (h : ∀ c, suffix.head? = some c → c.toNat < 48) :
    flagStep p ('-' :: 'c' :: suffix) s
      = .ret EXIT_FAILURE (s.eprint "Invalid clock divider exponent\n") := by
  have h1 : charAt ('-' :: 'c' :: suffix) 1 = 'c' := rfl
  have h2 : charVal p (charAt ('-' :: 'c' :: suffix) 2).toNat < (('0').toNat : Int) := by
    have h48 : ('0').toNat = 48 := rfl
    cases suffix with
    | nil =>
      rw [charVal_small p _ (by decide)]
      decide
    | cons c cs =>
      have hc : c.toNat < 48 := h c rfl
      show charVal p c.toNat < (('0').toNat : Int)
      rw [charVal_small p _ (by omega), h48]
      omega
  simp only [flagStep, h1, h2, true_or, if_true]
  simp

theorem toUInt8_not_digit (c : Char) (hi : Nat) (hhi : hi ≤ 9) (hb : c.toNat < 256)
    (h : c.toNat < 48 ∨ 48 + hi < c.toNat) : toUInt8 ((c.toNat : Int) - 0x30) > hi := by
  unfold toUInt8
  omega

/-- The step of the option loop on `-m`, `-s` or `-p` with nothing after the
letter or with a byte that is not a digit of the range after it. -/
theorem flagStep_digit_reject (p : Platform) (suffix : CStr) (s : State) :
    ((∀ c, suffix.head? = some c → c.toNat < 256 ∧ (c.toNat < 48 ∨ 48 + 3 < c.toNat)) →
        ∃ s1, flagStep p ('-' :: 'm' :: suffix) s = .ret EXIT_FAILURE s1
          ∧ s1.stderr = s.stderr ++ "Invalid mode\n")
    ∧ ((∀ c, suffix.head? = some c → c.toNat < 256 ∧ (c.toNat < 48 ∨ 48 + 3 < c.toNat)) →
        ∃ s1, flagStep p ('-' :: 's' :: suffix) s = .ret EXIT_FAILURE s1
          ∧ s1.stderr = s.stderr ++ "Invalid chip select\n")
    ∧ ((∀ c, suffix.head? = some c → c.toNat < 256 ∧ (c.toNat < 48 ∨ 48 + 1 < c.toNat)) →
        ∃ s1, flagStep p ('-' :: 'p' :: suffix) s = .ret EXIT_FAILURE s1
          ∧ s1.stderr = s.stderr ++ "Invalid chip select polarity\n") := by
  refine ⟨?_, ?_, ?_⟩
  · intro h
    have h2 : toUInt8 (((charAt ('-' :: 'm' :: suffix) 2).toNat : Int) - 0x30) > 3 := by
      cases suffix with
      | nil => decide
      | cons c cs => exact toUInt8_not_digit c 3 (by omega) (h c rfl).1 (h c rfl).2
    have h1 : charAt ('-' :: 'm' :: suffix) 1 = 'm' := rfl
    refine ⟨_, by simp only [flagStep, h1, h2, if_true]; simp; rfl, rfl⟩
  · intro h
    have h2 : toUInt8 (((charAt ('-' :: 's' :: suffix) 2).toNat : Int) - 0x30) > 3 := by
      cases suffix with
      | nil => decide
      | cons c cs => exact toUInt8_not_digit c 3 (by omega) (h c rfl).1 (h c rfl).2
    have h1 : charAt ('-' :: 's' :: suffix) 1 = 's' := rfl
    refine ⟨_, by simp only [flagStep, h1, h2, if_true]; simp; rfl, rfl⟩
  · intro h
    have h2 : toUInt8 (((charAt ('-' :: 'p' :: suffix) 2).toNat : Int) - 0x30) > 1 := by
      cases suffix with
      | nil => decide
      | cons c cs => exact toUInt8_not_digit c 1 (by omega) (h c rfl).1 (h c rfl).2
    have h1 : charAt ('-' :: 'p' :: suffix) 1 = 'p' := rfl
    refine ⟨_, by simp only [flagStep, h1, h2, if_true]; simp; rfl, rfl⟩

theorem comparse_reject (p : Platform) (prog : CStr) (pre : List Flag) (tok : CStr)
    (rest : List CStr) (s1 : State) (msg : String) (hv : ∀ f ∈ pre, f.valid)
    (hd : charAt tok 0 = '-')
    (h : flagStep p tok (pre.foldl Flag.apply State.start) = .ret EXIT_FAILURE s1)
    (hm : s1.stderr = (pre.foldl Flag.apply State.start).stderr ++ msg) :
    comparse p (prog :: (pre.map Flag.render ++ tok :: rest)) State.start
        = some (EXIT_FAILURE, s1) ∧ s1.stderr = msg := by
  refine ⟨?_, ?_⟩
  · rw [comparse_flags_then p prog pre _ hv (Or.inr (by simp)), flagLoop_ret rest hd h]
  · rw [hm, (foldl_apply_frame pre State.start).2.2.2.1]
    show "" ++ msg = msg
    exact String.empty_append msg

theorem comparse_accept (p : Platform) (prog : CStr) (pre : List Flag) (f : Flag)
    (tok : CStr) (rest : List CStr) (hv : ∀ g ∈ pre, g.valid) (hf : f.valid)
    (hd : charAt tok 0 = '-')
    (h : ∀ s, flagStep p tok s = .next (f.apply s)) :
    comparse p (prog :: (pre.map Flag.render ++ tok :: rest)) State.start
      = comparse p (prog :: ((pre ++ [f]).map Flag.render ++ rest)) State.start := by
  have hv2 : ∀ g ∈ pre ++ [f], g.valid := by
    intro g hg
    rcases List.mem_append.mp hg with h1 | h1
    · exact hv g h1
    · rw [List.mem_singleton.mp h1]; exact hf
  rw [comparse_flags_then p prog pre _ hv (Or.inr (by simp)),
    comparse_flags_then p prog (pre ++ [f]) rest hv2 (Or.inl (by simp)),
    flagLoop_next rest hd (h _), List.foldl_append]
  rfl

/-- C13, counterexample: `-c7x` (digits followed by garbage) is accepted with
`clk_div = 2^7`, and `-cx` (a letter) is accepted with `clk_div = 2^0`. -/
theorem clock_suffix_counterexample :
    comparse .ILP32 ["spincl".toList, "-c7x".toList, "1".toList] State.start
        = some (EXIT_SUCCESS, { State.start with clk_div := 128, len := 1 })
      ∧ comparse .ILP32 ["spincl".toList, "-cx".toList, "1".toList] State.start
        = some (EXIT_SUCCESS, { State.start with clk_div := 1, len := 1 }) := by
  refine ⟨rfl, rfl⟩

/-- C13, amended: for a `-c` token whose suffix begins with decimal digits of
value `v` (what follows the digits is not looked at): with `v ≤ 15` the token
is accepted exactly as `-c` with those digits alone and `clk_div` becomes
`2^v`; with `15 < v < 2^31` `comparse` returns failure. With an empty suffix
or one that begins with a character below `0`, `comparse` returns failure. -/
theorem clock_exponent_digits (p : Platform) (prog : CStr) (pre : List Flag)
    (hv : ∀ f ∈ pre, f.valid) :
    (∀ (ds tail : CStr) (rest : List CStr), ds ≠ [] → isDecimal ds →
        (∀ c, tail.head? = some c → c ∉ "0123456789".toList) → decVal ds ≤ 15 →
        comparse p (prog :: (pre.map Flag.render ++ ('-' :: 'c' :: (ds ++ tail)) :: rest))
            State.start
          = comparse p (prog :: ((pre ++ [Flag.c ds]).map Flag.render ++ rest)) State.start)
    ∧ (∀ (ds tail len : CStr) (toks : List CStr), ds ≠ [] → isDecimal ds →
        (∀ c, tail.head? = some c → c ∉ "0123456789".toList) → decVal ds ≤ 15 →
        isDecimal len → decVal len ≤ 32 → (∀ t ∈ toks, isDataToken t) →
        toks.length ≤ MAX_LEN →
        ∃ s, comparse p
              (prog :: (pre.map Flag.render ++ ('-' :: 'c' :: (ds ++ tail)) :: len :: toks))
              State.start = some (EXIT_SUCCESS, s)
          ∧ s.clk_div = 2 ^ decVal ds)
    ∧ (∀ (ds tail : CStr) (rest : List CStr), ds ≠ [] → isDecimal ds →
        (∀ c, tail.head? = some c → c ∉ "0123456789".toList) → 15 < decVal ds →
        decVal ds < 2147483648 →
        ∃ s, comparse p
              (prog :: (pre.map Flag.render ++ ('-' :: 'c' :: (ds ++ tail)) :: rest))
              State.start = some (EXIT_FAILURE, s)
          ∧ s.stderr = "Invalid clock divider exponent\n")
    ∧ (∀ (suffix : CStr) (rest : List CStr), (∀ c, suffix.head? = some c → c.toNat < 48) →
        ∃ s, comparse p (prog :: (pre.map Flag.render ++ ('-' :: 'c' :: suffix) :: rest))
              State.start = some (EXIT_FAILURE, s)
          ∧ s.stderr = "Invalid clock divider exponent\n") := by
  refine ⟨?_, ?_, ?_, ?_⟩
  · intro ds tail rest hne hds ht hval
    exact comparse_accept p prog pre (Flag.c ds) _ rest hv ⟨hne, hds, hval⟩ rfl
      (fun s => flagStep_clock_tail p ds tail s hne hds ht hval)
  · intro ds tail len toks hne hds ht hval hlen h32 htoks hk
    have hv2 : ∀ g ∈ pre ++ [Flag.c ds], g.valid := by
      intro g hg
      rcases List.mem_append.mp hg with h1 | h1
      · exact hv g h1
      · rw [List.mem_singleton.mp h1]; exact ⟨hne, hds, hval⟩
    rw [comparse_accept p prog pre (Flag.c ds) ('-' :: 'c' :: (ds ++ tail)) (len :: toks) hv
      ⟨hne, hds, hval⟩ rfl
      (fun s => flagStep_clock_tail p ds tail s hne hds ht hval)]
    refine ⟨_, comparse_ok p prog (pre ++ [Flag.c ds]) len toks hv2 hlen h32 htoks hk, ?_⟩
    simp only [List.foldl_append, List.foldl_cons, List.foldl_nil, Flag.apply]
  · intro ds tail rest hne hds ht hbig hfit
    exact ⟨_, comparse_reject p prog pre _ rest _ _ hv rfl
      (flagStep_clock_range p ds tail _ hne hds ht hbig hfit) rfl⟩
  · intro suffix rest h
    exact ⟨_, comparse_reject p prog pre _ rest _ _ hv rfl
      (flagStep_clock_low p suffix _ h) rfl⟩

/-- C13, amended, at `spincl -c07.5 1`, `spincl -c16 1` and `spincl -c 1`. -/
theorem clock_exponent_digits_witness :
    (∃ s, comparse .LP64 ["spincl".toList, "-c07.5".toList, "1".toList] State.start
          = some (EXIT_SUCCESS, s) ∧ s.clk_div = 128)
      ∧ (∃ s, comparse .LP64 ["spincl".toList, "-c16".toList, "1".toList] State.start
          = some (EXIT_FAILURE, s) ∧ s.stderr = "Invalid clock divider exponent\n")
      ∧ (∃ s, comparse .LP64 ["spincl".toList, "-c".toList, "1".toList] State.start
          = some (EXIT_FAILURE, s) ∧ s.stderr = "Invalid clock divider exponent\n") := by
  have h := clock_exponent_digits .LP64 "spincl".toList [] (by simp)
  refine ⟨?_, ?_, ?_⟩
  · exact h.2.1 "07".toList ".5".toList "1".toList [] (by decide) (by unfold isDecimal; decide)
      (by decide) (by decide) (by unfold isDecimal; decide) (by decide) (by simp) (by decide)
  · exact h.2.2.1 "16".toList [] ["1".toList] (by decide) (by unfold isDecimal; decide)
      (by simp) (by decide) (by decide)
  · exact h.2.2.2 [] ["1".toList] (by simp)

/-- C14, counterexample: `-m3x`, `-s12` and `-p1zz` are accepted, with mode 3,
chip select 1 and polarity 1. -/
theorem digit_suffix_counterexample :
    comparse .ILP32 ["spincl".toList, "-m3x".toList, "1".toList] State.start
        = some (EXIT_SUCCESS, { State.start with mode := 3, len := 1 })
      ∧ comparse .ILP32 ["spincl".toList, "-s12".toList, "1".toList] State.start
        = some (EXIT_SUCCESS, { State.start with cs := 1, len := 1 })
      ∧ comparse .ILP32 ["spincl".toList, "-p1zz".toList, "1".toList] State.start
        = some (EXIT_SUCCESS, { State.start with polarity := 1, len := 1 }) := by
  refine ⟨rfl, rfl, rfl⟩

/-- C14, amended: for a token with letter `m`, `s` or `p` only the first
character of the suffix counts. When it is a digit of the option's range
(0..3 for `m` and `s`, 0..1 for `p`) the token is accepted exactly as the
two-character option with that digit, whatever follows the digit, and the
field is set to the digit's value; with an empty suffix, or a first character
that is any other byte (those below `0` included), `comparse` returns
failure. -/
theorem first_suffix_char_decides (p : Platform) (prog : CStr) (pre : List Flag)
    (hv : ∀ f ∈ pre, f.valid) :
    (∀ (f : Flag) (tail : CStr) (rest : List CStr), f.valid →
        (f.letter = 'm' ∨ f.letter = 's' ∨ f.letter = 'p') →
        comparse p (prog :: (pre.map Flag.render ++ (f.render ++ tail) :: rest)) State.start
          = comparse p (prog :: ((pre ++ [f]).map Flag.render ++ rest)) State.start)
    ∧ (∀ (f : Flag) (tail len : CStr) (toks : List CStr), f.valid →
        (f.letter = 'm' ∨ f.letter = 's' ∨ f.letter = 'p') →
        isDecimal len → decVal len ≤ 32 → (∀ t ∈ toks, isDataToken t) →
        toks.length ≤ MAX_LEN →
        ∃ s, comparse p (prog :: (pre.map Flag.render ++ (f.render ++ tail) :: len :: toks))
              State.start = some (EXIT_SUCCESS, s)
          ∧ (∀ d, f = Flag.m d → s.mode = d) ∧ (∀ d, f = Flag.s d → s.cs = d)
          ∧ (∀ d, f = Flag.p d → s.polarity = d))
    ∧ (∀ (suffix : CStr) (rest : List CStr),
        (∀ c, suffix.head? = some c → c.toNat < 256 ∧ (c.toNat < 48 ∨ 48 + 3 < c.toNat)) →
        ∃ s, comparse p (prog :: (pre.map Flag.render ++ ('-' :: 'm' :: suffix) :: rest))
              State.start = some (EXIT_FAILURE, s) ∧ s.stderr = "Invalid mode\n")
    ∧ (∀ (suffix : CStr) (rest : List CStr),
        (∀ c, suffix.head? = some c → c.toNat < 256 ∧ (c.toNat < 48 ∨ 48 + 3 < c.toNat)) →
        ∃ s, comparse p (prog :: (pre.map Flag.render ++ ('-' :: 's' :: suffix) :: rest))
              State.start = some (EXIT_FAILURE, s) ∧ s.stderr = "Invalid chip select\n")
    ∧ (∀ (suffix : CStr) (rest : List CStr),
        (∀ c, suffix.head? = some c → c.toNat < 256 ∧ (c.toNat < 48 ∨ 48 + 1 < c.toNat)) →
        ∃ s, comparse p (prog :: (pre.map Flag.render ++ ('-' :: 'p' :: suffix) :: rest))
              State.start = some (EXIT_FAILURE, s)
          ∧ s.stderr = "Invalid chip select polarity\n") := by
  have hdash : ∀ (f : Flag) (tail : CStr), charAt (f.render ++ tail) 0 = '-' := by
    intro f tail
    cases f <;> rfl
  refine ⟨?_, ?_, ?_, ?_, ?_⟩
  · intro f tail rest hf hl
    exact comparse_accept p prog pre f _ rest hv hf (hdash f tail)
      (fun s => flagStep_digit_tail p f tail s hf hl)
  · intro f tail len toks hf hl hlen h32 htoks hk
    have hv2 : ∀ g ∈ pre ++ [f], g.valid := by
      intro g hg
      rcases List.mem_append.mp hg with h1 | h1
      · exact hv g h1
      · rw [List.mem_singleton.mp h1]; exact hf
    rw [comparse_accept p prog pre f (f.render ++ tail) (len :: toks) hv hf (hdash f tail)
      (fun s => flagStep_digit_tail p f tail s hf hl)]
    refine ⟨_, comparse_ok p prog (pre ++ [f]) len toks hv2 hlen h32 htoks hk, ?_, ?_, ?_⟩
    all_goals
      intro d hd
      subst hd
      simp only [List.foldl_append, List.foldl_cons, List.foldl_nil, Flag.apply]
  · intro suffix rest h
    obtain ⟨s1, h1, h2⟩ := (flagStep_digit_reject p suffix _).1 h
    exact ⟨s1, comparse_reject p prog pre _ rest s1 _ hv rfl h1 h2⟩
  · intro suffix rest h
    obtain ⟨s1, h1, h2⟩ := (flagStep_digit_reject p suffix _).2.1 h
    exact ⟨s1, comparse_reject p prog pre _ rest s1 _ hv rfl h1 h2⟩
  · intro suffix rest h
    obtain ⟨s1, h1, h2⟩ := (flagStep_digit_reject p suffix _).2.2 h
    exact ⟨s1, comparse_reject p prog pre _ rest s1 _ hv rfl h1 h2⟩

/-- C14, amended, at `spincl -m3x 1`, `spincl -m 1` and `spincl -p/ 1`. -/
theorem first_suffix_char_decides_witness :
    (∃ s, comparse .ILP32 ["spincl".toList, "-m3x".toList, "1".toList] State.start
          = some (EXIT_SUCCESS, s) ∧ s.mode = 3)
      ∧ (∃ s, comparse .ILP32 ["spincl".toList, "-m".toList, "1".toList] State.start
          = some (EXIT_FAILURE, s) ∧ s.stderr = "Invalid mode\n")
      ∧ (∃ s, comparse .ILP32 ["spincl".toList, "-p/".toList, "1".toList] State.start
          = some (EXIT_FAILURE, s) ∧ s.stderr = "Invalid chip select polarity\n") := by
  have h := first_suffix_char_decides .ILP32 "spincl".toList [] (by simp)
  refine ⟨?_, ?_, ?_⟩
  · obtain ⟨s, h1, h2, -, -⟩ := h.2.1 (Flag.m 3) "x".toList "1".toList [] (by simp [Flag.valid])
      (Or.inl rfl) (by unfold isDecimal; decide) (by decide) (by simp) (by decide)
    exact ⟨s, h1, h2 3 rfl⟩
  · exact h.2.2.1 [] ["1".toList] (by simp)
  · exact h.2.2.2.2 "/".toList ["1".toList] (by
      intro c hc
      simp only [String.toList, List.head?_cons, Option.some.injEq] at hc
      subst hc
      decide)

/-! ## The report -/

set_option maxRecDepth 100000 in
theorem fmt02x_byte : ∀ b, b < 256 →
    (fmt02x b).data = [hexDigitChar (b / 16), hexDigitChar (b % 16)] := by
  decide

set_option maxRecDepth 100000 in
theorem byteText_facts : ∀ b, b < 256 →
    litValue (byteText b) = some b ∧ ∀ c ∈ byteText b, isspace c = false := by
  decide

set_option maxRecDepth 100000 in
set_option maxHeartbeats 4000000 in
/-- The token `printf` makes of a byte from 128 on where plain `char` is
signed. -/
theorem signed_token_facts : ∀ b, b < 256 → 128 ≤ b →
    (litValue (['0', 'x'] ++ (fmt02x (4294967040 + b)).data)).map
        (fun v => (decide (v < 4294967296), v % 256)) = some (true, b)
      ∧ ∀ c ∈ ['0', 'x'] ++ (fmt02x (4294967040 + b)).data, isspace c = false := by
  decide

/-- The token `printf` makes of a received byte: on every platform it is a
literal without white space whose value fits in 32 bits and has the byte as
its low 8 bits. -/
theorem printed_token_facts (p : Platform) (b : Nat) (hb : b < 256) :
    (litValue (['0', 'x'] ++ (fmt02x (toUInt32 (charVal p b))).data)).map
        (fun v => (decide (v < 4294967296), v % 256)) = some (true, b)
      ∧ ∀ c ∈ ['0', 'x'] ++ (fmt02x (toUInt32 (charVal p b))).data, isspace c = false := by
  by_cases h : p.charSigned = true ∧ 128 ≤ b
  · have hv : toUInt32 (charVal p b) = 4294967040 + b := by
      unfold charVal toUInt32
      rw [if_pos h]
      have := h.2
      omega
    rw [hv]
    exact signed_token_facts b hb h.2
  · have hv : toUInt32 (charVal p b) = b := by
      unfold charVal toUInt32
      rw [if_neg h]
      omega
    have htok : ['0', 'x'] ++ (fmt02x (toUInt32 (charVal p b))).data = byteText b := by
      rw [hv, fmt02x_byte b hb]
      rfl
    rw [htok]
    obtain ⟨f1, f2⟩ := byteText_facts b hb
    refine ⟨?_, f2⟩
    rw [f1]
    simp only [Option.map_some', Option.some.injEq, Prod.mk.injEq, decide_eq_true_eq]
    exact ⟨by omega, Nat.mod_eq_of_lt hb⟩

theorem printLoop_data {p : Platform} {n i : Nat} {s s1 : State}
    (h : printLoop p n i s = some s1) :
    s1.stdout.data = s.stdout.data
        ++ (((s.rbuf.drop i).take n).map
              (fun b => (['0', 'x'] ++ (fmt02x (toUInt32 (charVal p b))).data) ++ [' '])).flatten
      ∧ s1.rbuf = s.rbuf := by
  induction n generalizing i s with
  | zero =>
    simp only [printLoop, Option.some.injEq] at h
    subst h
    simp
  | succ n ih =>
    simp only [printLoop] at h
    split at h
    · rename_i b hb
      obtain ⟨a1, a2⟩ := ih h
      have hi : i < s.rbuf.length := by
        rw [List.get?_eq_getElem?] at hb
        exact (List.getElem?_eq_some_iff.mp hb).1
      have hbv : s.rbuf[i] = b := by
        rw [List.get?_eq_getElem?] at hb
        exact (List.getElem?_eq_some_iff.mp hb).2
      refine ⟨?_, a2⟩
      rw [a1, List.drop_eq_getElem_cons hi, hbv]
      simp [State.print, List.append_assoc]
    · cases h

theorem wordsAux_token (tok : CStr) (sp : Char) (rest cur : CStr)
    (ht : ∀ c ∈ tok, isspace c = false) (hs : isspace sp = true) (hne : cur ++ tok ≠ []) :
    wordsAux (tok ++ sp :: rest) cur = (cur ++ tok) :: wordsAux rest [] := by
  induction tok generalizing cur with
  | nil =>
    have hc : cur ≠ [] := by simpa using hne
    have he : cur.isEmpty = false := by
      cases cur with
      | nil => exact absurd rfl hc
      | cons a b => rfl
    simp [wordsAux, hs, he]
  | cons c cs ih =>
    have h1 : isspace c = false := ht c (List.mem_cons_self _ _)
    have h2 : wordsAux (c :: (cs ++ sp :: rest)) cur = wordsAux (cs ++ sp :: rest) (cur ++ [c]) := by
      simp only [wordsAux, h1, Bool.false_eq_true, if_false]
    rw [List.cons_append, h2,
      ih (cur ++ [c]) (fun d hd => ht d (List.mem_cons_of_mem _ hd)) (by simp)]
    simp

/-- The tokens of a text made of tokens without white space, each followed by
a space, and a final newline. -/
theorem words_report (tok : Nat → CStr) (r : List Nat)
    (h : ∀ b ∈ r, tok b ≠ [] ∧ ∀ c ∈ tok b, isspace c = false) :
    words ((r.map (fun b => tok b ++ [' '])).flatten ++ [Char.ofNat 10]) = r.map tok := by
  unfold words
  induction r with
  | nil =>
    simp only [List.map_nil, List.flatten_nil, List.nil_append]
    decide
  | cons b bs ih =>
    have hb := h b (List.mem_cons_self _ _)
    have h1 : ((b :: bs).map (fun b => tok b ++ [' '])).flatten ++ [Char.ofNat 10]
        = tok b ++ ' ' :: ((bs.map (fun b => tok b ++ [' '])).flatten ++ [Char.ofNat 10]) := by
      simp [List.append_assoc]
    rw [h1, wordsAux_token (tok b) ' ' _ [] hb.2 (by decide) (by simpa using hb.1),
      ih (fun x hx => h x (List.mem_cons_of_mem _ hx))]
    simp

/-- The text `main` prints and the bytes it has received, once `comparse` has
returned success with a non-zero `len`. -/
theorem main_report_after_parse (w : World) (argv : List CStr) (s : State)
    (hinit : w.initOk = true)
    (hparse : comparse w.plat argv State.start = some (EXIT_SUCCESS, s))
    (hne : s.len ≠ 0) :
    ∃ s1, main w argv = some (EXIT_SUCCESS, s1)
      ∧ s1.stdout.data
          = (((List.range s.len).map (fun i => w.miso i % 256)).map
              (fun b => (['0', 'x'] ++ (fmt02x (toUInt32 (charVal w.plat b))).data)
                          ++ [' '])).flatten ++ [Char.ofNat 10]
      ∧ s1.rbuf.take s.len = (List.range s.len).map (fun i => w.miso i % 256) := by
  obtain ⟨-, hcalls, hout, -, hle0⟩ := comparse_frame hparse
  have hle : s.len ≤ MAX_LEN := hle0 rfl (by decide)
  have hempty : s.stdout = "" := hout
  have hfail : ¬ (EXIT_SUCCESS = EXIT_FAILURE) := by decide
  clear hcalls hout hle0
  obtain ⟨rbuf, wbuf, len, init, mode, clk_div, cs, polarity, stderr, stdout, calls⟩ := s
  simp only at hle hempty hne
  subst hempty
  have h32 : len ≤ 32 := hle
  cases init
  all_goals
    simp only [main, hparse, hfail, if_false, hinit, Bool.not_true, State.call, hne,
      transfernb, hle, if_true, reduceCtorEq, Bool.false_eq_true]
    split
    · rename_i heq
      exact absurd heq (printLoop_isSome _ _ _ _ (by simp [MAX_LEN]))
    · rename_i s1 heq
      obtain ⟨a1, a2⟩ := printLoop_data heq
      refine ⟨_, rfl, ?_, ?_⟩
      · simp only [State.print, String.data_append, a1, List.drop_zero]
        rw [List.take_append_of_le_length (by simp), List.take_of_length_le (by simp)]
        rfl
      · simp only [State.print, a2]
        rw [List.take_append_of_le_length (by simp), List.take_of_length_le (by simp)]

theorem received_bytes (w : World) (n : Nat) :
    ∀ b ∈ (List.range n).map (fun i => w.miso i % 256), b < 256 := by
  intro b hb
  obtain ⟨i, -, rfl⟩ := List.mem_map.mp hb
  exact Nat.mod_lt _ (by decide)

/-- C17, counterexample: after the transfer of the one byte `a0` the text
printed is `0xa0`, a space and a newline; a text with spaces only between the
bytes would have no space here. Where plain `char` is signed, the byte `80`
is printed with eight digits. -/
theorem report_format_counterexample :
    (∃ s1, main ⟨.ILP32, "1.3.1", true, fun _ => 160⟩ ["spincl".toList, "1".toList]
          = some (EXIT_SUCCESS, s1)
      ∧ s1.stdout = "0xa0 \n"
      ∧ reportSeparated [160] = "0xa0\n".toList
      ∧ s1.stdout.toList ≠ reportSeparated [160])
    ∧ (∃ s1, main ⟨.ILP32_signed, "1.3.1", true, fun _ => 128⟩
          ["spincl".toList, "1".toList] = some (EXIT_SUCCESS, s1)
      ∧ s1.stdout = "0xffffff80 \n") := by
  refine ⟨⟨_, rfl, rfl, by decide, by decide⟩, ⟨_, rfl, rfl⟩⟩

/-- C17, amended: after a successful parse with `len > 0` and a successful
`bcm2835_init`, where plain `char` is unsigned or every received byte is
below 128, `main` returns success and the text it has printed is, for each of
the `len` received bytes in order, `0x`, the two lower-case hexadecimal
digits of the byte and one space (after the last byte too), and then a
newline. -/
theorem report_format (w : World) (argv : List CStr) (s : State)
    (hinit : w.initOk = true)
    (hparse : comparse w.plat argv State.start = some (EXIT_SUCCESS, s))
    (hlen : 0 < s.len)
    (hchar : w.plat.charSigned = false ∨ ∀ i, i < s.len → w.miso i % 256 < 128) :
    ∃ s1, main w argv = some (EXIT_SUCCESS, s1)
      ∧ s1.stdout = String.mk (reportText ((List.range s.len).map (fun i => w.miso i % 256)))
      ∧ s1.rbuf.take s.len = (List.range s.len).map (fun i => w.miso i % 256) := by
  obtain ⟨s1, h1, h2, h3⟩ := main_report_after_parse w argv s hinit hparse (by omega)
  refine ⟨s1, h1, ?_, h3⟩
  have hplain : ∀ b ∈ (List.range s.len).map (fun i => w.miso i % 256),
      toUInt32 (charVal w.plat b) = b := by
    intro b hb
    have hlt := received_bytes w s.len b hb
    have hv : charVal w.plat b = b := by
      unfold charVal
      rw [if_neg]
      intro hc
      rcases hchar with h | h
      · rw [h] at hc
        exact absurd hc.1 (by decide)
      · obtain ⟨i, hi, rfl⟩ := List.mem_map.mp hb
        have := h i (List.mem_range.mp hi)
        have := hc.2
        omega
    rw [hv]
    unfold toUInt32
    omega
  have hmap : ((List.range s.len).map (fun i => w.miso i % 256)).map
        (fun b => (['0', 'x'] ++ (fmt02x (toUInt32 (charVal w.plat b))).data) ++ [' '])
      = ((List.range s.len).map (fun i => w.miso i % 256)).map
          (fun b => byteText b ++ [' ']) := by
    apply List.map_congr_left
    intro b hb
    rw [hplain b hb, fmt02x_byte b (received_bytes w s.len b hb)]
    rfl
  have hdata : s1.stdout.data
      = reportText ((List.range s.len).map (fun i => w.miso i % 256)) := by
    rw [h2, hmap]
    rfl
  rw [← hdata]

/-- C17, amended, at `spincl 3` with the bytes `00 9f ff` received. -/
theorem report_format_witness :
    ∃ s1, main ⟨.LP64, "1.3.1", true, fun i => [0, 159, 255].getD i 0⟩
          ["spincl".toList, "3".toList] = some (EXIT_SUCCESS, s1)
      ∧ s1.stdout = "0x00 0x9f 0xff \n"
      ∧ s1.rbuf.take 3 = [0, 159, 255] :=
  report_format ⟨.LP64, "1.3.1", true, fun i => [0, 159, 255].getD i 0⟩
    ["spincl".toList, "3".toList] { State.start with len := 3 } rfl rfl (by decide)
    (Or.inl rfl)

/-- C16: the white-space separated tokens of the report that `main` prints
after a transfer of `len ≥ 1` bytes, given as transmit tokens after the same
length, are accepted by `comparse`, and the first `len` bytes of `wbuf` are
then the bytes that were received. -/
theorem report_round_trip (w : World) (argv : List CStr) (s : State) (p : Platform)
    (prog len : CStr) (hinit : w.initOk = true)
    (hparse : comparse w.plat argv State.start = some (EXIT_SUCCESS, s))
    (hpos : 0 < s.len) (hlen : isDecimal len) (hval : decVal len = s.len) :
    ∃ s1 s2, main w argv = some (EXIT_SUCCESS, s1)
      ∧ s1.rbuf.take s.len = (List.range s.len).map (fun i => w.miso i % 256)
      ∧ comparse p (prog :: len :: words s1.stdout.toList) State.start
          = some (EXIT_SUCCESS, s2)
      ∧ s2.len = s.len
      ∧ s2.wbuf.take s.len = s1.rbuf.take s.len := by
  obtain ⟨-, -, -, -, hle0⟩ := comparse_frame hparse
  have hle : s.len ≤ 32 := hle0 rfl (by decide)
  obtain ⟨s1, h1, h2, h3⟩ := main_report_after_parse w argv s hinit hparse (by omega)
  have hbytes := received_bytes w s.len
  have htokfacts : ∀ b ∈ (List.range s.len).map (fun i => w.miso i % 256),
      isDataToken (['0', 'x'] ++ (fmt02x (toUInt32 (charVal w.plat b))).data)
        ∧ toUInt8 (strtoul0 p (['0', 'x'] ++ (fmt02x (toUInt32 (charVal w.plat b))).data)) = b
        ∧ (['0', 'x'] ++ (fmt02x (toUInt32 (charVal w.plat b))).data) ≠ []
        ∧ ∀ c ∈ ['0', 'x'] ++ (fmt02x (toUInt32 (charVal w.plat b))).data,
            isspace c = false := by
    intro b hb
    obtain ⟨f1, f2⟩ := printed_token_facts w.plat b (hbytes b hb)
    cases hl : litValue (['0', 'x'] ++ (fmt02x (toUInt32 (charVal w.plat b))).data) with
    | none => rw [hl] at f1; cases f1
    | some v =>
      rw [hl] at f1
      simp only [Option.map_some', Option.some.injEq, Prod.mk.injEq, decide_eq_true_eq] at f1
      obtain ⟨g1, g2⟩ := strtoul0_literal p _ v hl
      refine ⟨g1, ?_, by simp, f2⟩
      rw [g2]
      have hmin : min v (ULONG_MAX p) = v := by
        cases p <;> simp [ULONG_MAX, Platform.longBits] <;> omega
      rw [hmin]
      unfold toUInt8
      omega
  have hw : words s1.stdout.toList
      = ((List.range s.len).map (fun i => w.miso i % 256)).map
          (fun b => ['0', 'x'] ++ (fmt02x (toUInt32 (charVal w.plat b))).data) := by
    show words s1.stdout.data = _
    rw [h2]
    exact words_report _ _ (fun b hb => ⟨(htokfacts b hb).2.2.1, (htokfacts b hb).2.2.2⟩)
  have ht : ∀ t ∈ ((List.range s.len).map (fun i => w.miso i % 256)).map
      (fun b => ['0', 'x'] ++ (fmt02x (toUInt32 (charVal w.plat b))).data), isDataToken t := by
    intro t htm
    obtain ⟨b, hb, rfl⟩ := List.mem_map.mp htm
    exact (htokfacts b hb).1
  have hmap : (((List.range s.len).map (fun i => w.miso i % 256)).map
      (fun b => ['0', 'x'] ++ (fmt02x (toUInt32 (charVal w.plat b))).data)).map
        (fun t => toUInt8 (strtoul0 p t))
      = (List.range s.len).map (fun i => w.miso i % 256) := by
    rw [List.map_map]
    conv_rhs => rw [← List.map_id ((List.range s.len).map (fun i => w.miso i % 256))]
    apply List.map_congr_left
    intro b hb
    exact (htokfacts b hb).2.1
  have hk : (((List.range s.len).map (fun i => w.miso i % 256)).map
      (fun b => ['0', 'x'] ++ (fmt02x (toUInt32 (charVal w.plat b))).data)).length
      ≤ MAX_LEN := by
    simp only [List.length_map, List.length_range, MAX_LEN]
    exact hle
  have hok := comparse_ok p prog [] len _ (by simp) hlen (by omega) ht hk
  obtain ⟨s2, hs2, hl2, hw2⟩ : ∃ s2,
      comparse p (prog :: len :: words s1.stdout.toList) State.start = some (EXIT_SUCCESS, s2)
        ∧ s2.len = decVal len
        ∧ s2.wbuf = (List.range s.len).map (fun i => w.miso i % 256)
            ++ List.replicate (MAX_LEN - s.len) 0 := by
    rw [hw]
    refine ⟨_, hok, rfl, ?_⟩
    simp only [hmap, List.length_map, List.length_range]
  refine ⟨s1, s2, h1, h3, hs2, hl2.trans hval, ?_⟩
  rw [hw2, h3, List.take_append_of_le_length (by simp), List.take_of_length_le (by simp)]

/-- C16 at `spincl 2` with the bytes `a0 0b` received: the report gives the
tokens `0xa0` and `0x0b`, and `spincl 2 0xa0 0x0b` has these two bytes to
transmit. -/
theorem report_round_trip_witness :
    ∃ s1 s2, main ⟨.ILP32, "1.3.1", true, fun i => [160, 11].getD i 0⟩
          ["spincl".toList, "2".toList] = some (EXIT_SUCCESS, s1)
      ∧ s1.rbuf.take 2 = [160, 11]
      ∧ comparse .LP64 ("spincl".toList :: "2".toList :: words s1.stdout.toList) State.start
          = some (EXIT_SUCCESS, s2)
      ∧ s2.len = 2
      ∧ s2.wbuf.take 2 = s1.rbuf.take 2 :=
  report_round_trip ⟨.ILP32, "1.3.1", true, fun i => [160, 11].getD i 0⟩
    ["spincl".toList, "2".toList] { State.start with len := 2 } .LP64 "spincl".toList
    "2".toList rfl rfl (by decide) (by unfold isDecimal; decide) (by decide)

/-! ## The longest literal prefix of a token -/

theorem longest_found (f : Nat → Option Nat) (n k v : Nat) (hk : k ≤ n) (hf : f k = some v)
    (hl : ∀ j, k < j → j ≤ n → f j = none) :
    (List.range (n + 1)).reverse.findSome? f = some v := by
  induction n with
  | zero =>
    have h0 : k = 0 := by omega
    subst h0
    simp [List.range_succ, hf]
  | succ n ih =>
    rw [List.range_succ, List.reverse_append, List.reverse_singleton, List.singleton_append,
      List.findSome?_cons]
    by_cases hkn : k = n + 1
    · subst hkn
      rw [hf]
    · rw [hl (n + 1) (by omega) (le_refl _)]
      exact ih (by omega) (fun j h1 h2 => hl j h1 (by omega))

theorem longest_none (f : Nat → Option Nat) (n : Nat) (h : ∀ j, j ≤ n → f j = none) :
    (List.range (n + 1)).reverse.findSome? f = none := by
  induction n with
  | zero => simp [List.range_succ, h 0 (le_refl _)]
  | succ n ih =>
    rw [List.range_succ, List.reverse_append, List.reverse_singleton, List.singleton_append,
      List.findSome?_cons, h (n + 1) (le_refl _)]
    exact ih (fun j hj => h j (by omega))

theorem prefixValue_split (a t : CStr) (v : Nat) (ha : litValue a = some v)
    (ht : ∀ i, 0 < i → i ≤ t.length → litValue (a ++ t.take i) = none) :
    prefixValue (a ++ t) = v := by
  unfold prefixValue
  rw [longest_found (fun k => litValue ((a ++ t).take k)) _ a.length v (by simp)
    (by simp [ha])]
  · rfl
  · intro j h1 h2
    simp only [List.length_append] at h2
    simp only [List.take_append_eq_append_take, List.take_of_length_le (Nat.le_of_lt h1)]
    exact ht (j - a.length) (by omega) (by omega)

theorem prefixValue_none (s : CStr) (h : ∀ k, litValue (s.take k) = none) :
    prefixValue s = 0 := by
  unfold prefixValue
  rw [longest_none _ _ (fun j _ => h j)]
  rfl

theorem run_split (P : Char → Bool) (l : CStr) :
    ∃ run tail, l = run ++ tail ∧ (∀ c ∈ run, P c = true)
      ∧ (∀ c, tail.head? = some c → P c = false) := by
  refine ⟨l.takeWhile P, l.dropWhile P, (List.takeWhile_append_dropWhile P l).symm,
    fun c hc => List.mem_takeWhile_imp hc, ?_⟩
  intro c hc
  have := List.head?_dropWhile_not P l
  rw [hc] at this
  exact this

theorem head_mem_take (t : CStr) (i : Nat) (hi : 0 < i) (hle : i ≤ t.length) :
    ∃ c, t.head? = some c ∧ c ∈ t.take i := by
  cases t with
  | nil => simp only [List.length_nil] at hle; omega
  | cons c cs =>
    refine ⟨c, rfl, ?_⟩
    cases i with
    | zero => omega
    | succ i => simp

theorem octal_of_digitVal (c : Char) (h : digitVal c < 8) : c ∈ "01234567".toList := by
  have hc := Char.ofNat_toNat c
  unfold digitVal at h
  simp only at h
  split_ifs at h with h1 h2 h3
  · have h4 : c.toNat ≤ 55 := by omega
    have h5 := h1.1
    generalize c.toNat = n at *
    interval_cases n <;> subst hc <;> decide
  · omega
  · omega
  · omega

theorem hex_of_digitVal (c : Char) (h : digitVal c < 16) :
    c ∈ "0123456789abcdefABCDEF".toList := by
  have hc := Char.ofNat_toNat c
  unfold digitVal at h
  simp only at h
  split_ifs at h with h1 h2 h3
  · have h5 := h1.1
    have h6 := h1.2
    generalize c.toNat = n at *
    interval_cases n <;> subst hc <;> decide
  · have h5 := h2.1
    have h6 : c.toNat ≤ 102 := by omega
    generalize c.toNat = n at *
    interval_cases n <;> subst hc <;> decide
  · have h5 := h3.1
    have h6 : c.toNat ≤ 70 := by omega
    generalize c.toNat = n at *
    interval_cases n <;> subst hc <;> decide
  · omega

theorem data_char_plain {c : Char} (h : c ∈ "0123456789abcdefABCDEFxX".toList) :
    isspace c = false ∧ c ≠ '-' ∧ c ≠ '+' := by
  have h2 : c = '0' ∨ c = '1' ∨ c = '2' ∨ c = '3' ∨ c = '4' ∨ c = '5' ∨ c = '6' ∨ c = '7'
      ∨ c = '8' ∨ c = '9' ∨ c = 'a' ∨ c = 'b' ∨ c = 'c' ∨ c = 'd' ∨ c = 'e' ∨ c = 'f'
      ∨ c = 'A' ∨ c = 'B' ∨ c = 'C' ∨ c = 'D' ∨ c = 'E' ∨ c = 'F' ∨ c = 'x' ∨ c = 'X' := by
    simpa using h
  rcases h2 with h | h | h | h | h | h | h | h | h | h | h | h | h | h | h | h | h | h | h
    | h | h | h | h | h <;> subst h <;> decide

/-- Base ten or eight, by the first character: what `strtoul0` does with a
string that begins with neither white space, a sign, nor `0x`. -/
theorem strtoul0_unprefixed (p : Platform) (c : Char) (rest : CStr) (hs : isspace c = false)
    (hm : c ≠ '-') (hp : c ≠ '+') (hx : ∀ c1, rest.head? = some c1 → ¬ (c = '0' ∧ (c1 = 'x' ∨ c1 = 'X'))) :
    strtoul0 p (c :: rest)
      = min (if c = '0' then parseDigits 8 (c :: rest) 0 else parseDigits 10 (c :: rest) 0)
          (ULONG_MAX p) := by
  cases rest with
  | nil => exact strtoul0_single p c hs hm hp
  | cons c1 ds =>
    rw [strtoul0_plain p c c1 ds hs hm hp, if_neg (hx c1 rfl)]

theorem nonzero_of_decimal {c : Char} (h : c ∈ "0123456789".toList) (h0 : c ≠ '0') :
    c ∈ "123456789".toList := by
  have h2 : c = '0' ∨ c = '1' ∨ c = '2' ∨ c = '3' ∨ c = '4' ∨ c = '5' ∨ c = '6' ∨ c = '7'
      ∨ c = '8' ∨ c = '9' := by simpa using h
  rcases h2 with h | h | h | h | h | h | h | h | h | h
  · exact absurd h h0
  all_goals subst h; decide

/-- A token that does not begin with `0`. -/
theorem strtoul0_prefix_decimal (p : Platform) (c0 : Char) (rest : CStr)
    (hplain : isspace c0 = false ∧ c0 ≠ '-' ∧ c0 ≠ '+') (h0 : c0 ≠ '0') :
    strtoul0 p (c0 :: rest) = min (prefixValue (c0 :: rest)) (ULONG_MAX p) := by
  rw [strtoul0_unprefixed p c0 rest hplain.1 hplain.2.1 hplain.2.2
    (fun c1 _ h => h0 h.1), if_neg h0]
  by_cases hd : digitVal c0 < 10
  · obtain ⟨run, tail, hrest, hrun, htail⟩ := run_split (fun c => decide (digitVal c < 10)) rest
    subst hrest
    have hc0 : c0 ∈ "123456789".toList := nonzero_of_decimal (decimal_of_digitVal c0 hd) h0
    have hdrun : isDecimal run := fun c hc =>
      decimal_of_digitVal c (of_decide_eq_true (hrun c hc))
    have hdec : isDecimal (c0 :: run) := by
      intro c hc
      rcases List.mem_cons.mp hc with h | h
      · rw [h]; exact decimal_of_digitVal c0 hd
      · exact hdrun c h
    have hlit : litValue (c0 :: run) = some (decVal (c0 :: run)) := by
      simp only [litValue, if_neg h0, if_pos (And.intro hc0 hdrun)]
    have hlater : ∀ i, 0 < i → i ≤ tail.length →
        litValue ((c0 :: run) ++ tail.take i) = none := by
      intro i hi hle
      obtain ⟨c, hc, hmem⟩ := head_mem_take tail i hi hle
      have hbad : ¬ isDecimal (run ++ tail.take i) := by
        intro hall
        have := (digit_facts (hall c (List.mem_append_right _ hmem))).2.1
        exact (of_decide_eq_false (htail c hc)) this
      simp only [List.cons_append, litValue, if_neg h0]
      rw [if_neg (fun h => hbad h.2)]
    have hpv : prefixValue (c0 :: (run ++ tail)) = decVal (c0 :: run) :=
      prefixValue_split (c0 :: run) tail _ hlit hlater
    have hparse : parseDigits 10 (c0 :: (run ++ tail)) 0 = decVal (c0 :: run) := by
      have := parseDigits_append_stop 10 (c0 :: run) tail
        (fun c hc => (digit_facts (hdec c hc)).2.1)
        (fun c hc => of_decide_eq_false (htail c hc)) 0
      rw [List.cons_append] at this
      rw [this, parseDigits_dec _ hdec 0]
      rfl
    rw [hpv, hparse]
  · have hpv : prefixValue (c0 :: rest) = 0 := by
      apply prefixValue_none
      intro k
      cases k with
      | zero => rfl
      | succ k =>
        simp only [List.take_succ_cons, litValue, if_neg h0]
        rw [if_neg (fun h => hd (digit_facts (nonzero_digit_facts h.1).1).2.1)]
    have hparse : parseDigits 10 (c0 :: rest) 0 = 0 := by
      simp only [parseDigits, if_neg hd]
    rw [hpv, hparse]

/-- A token that begins with `0x` or `0X`. -/
theorem strtoul0_prefix_hex (p : Platform) (c1 : Char) (ds : CStr)
    (hx : c1 = 'x' ∨ c1 = 'X') :
    strtoul0 p ('0' :: c1 :: ds) = min (prefixValue ('0' :: c1 :: ds)) (ULONG_MAX p) := by
  rw [strtoul0_plain p '0' c1 ds (by decide) (by decide) (by decide), if_pos ⟨rfl, hx⟩]
  obtain ⟨run, tail, hds, hrun, htail⟩ := run_split (fun c => decide (digitVal c < 16)) ds
  subst hds
  have hhex : isHex run := fun c hc => hex_of_digitVal c (of_decide_eq_true (hrun c hc))
  have hbad : ∀ (pre : CStr) (i : Nat), 0 < i → i ≤ tail.length →
      ¬ isHex (pre ++ tail.take i) := by
    intro pre i hi hle hall
    obtain ⟨c, hc, hmem⟩ := head_mem_take tail i hi hle
    exact (of_decide_eq_false (htail c hc))
      (hex_facts (hall c (List.mem_append_right _ hmem))).2.1
  have hparse : parseDigits 16 (run ++ tail) 0 = hexVal run := by
    rw [parseDigits_append_stop 16 run tail (fun c hc => of_decide_eq_true (hrun c hc))
      (fun c hc => of_decide_eq_false (htail c hc)) 0, parseDigits_hex _ hhex 0]
    rfl
  rw [hparse]
  by_cases hne : run = []
  · subst hne
    have hpv : prefixValue (['0'] ++ (c1 :: tail)) = 0 := by
      apply prefixValue_split ['0'] (c1 :: tail) 0 (by decide)
      intro i hi hle
      cases i with
      | zero => omega
      | succ i =>
        simp only [List.length_cons] at hle
        simp only [List.take_succ_cons, List.singleton_append, litValue, if_true, if_pos hx]
        rw [if_neg]
        intro h
        have hpos : 0 < i := by
          rcases Nat.eq_zero_or_pos i with h0 | h0
          · subst h0; exact absurd rfl h.1
          · exact h0
        exact hbad [] i hpos (by omega) (by simpa using h.2)
    simp only [List.nil_append]
    rw [show '0' :: c1 :: tail = ['0'] ++ (c1 :: tail) from rfl, hpv]
    rfl
  · have hpv : prefixValue (('0' :: c1 :: run) ++ tail) = hexVal run := by
      apply prefixValue_split ('0' :: c1 :: run) tail (hexVal run)
      · simp only [litValue, if_true, if_pos hx]
        rw [if_pos ⟨hne, hhex⟩]
      · intro i hi hle
        simp only [List.cons_append, litValue, if_true, if_pos hx]
        rw [if_neg (fun h => hbad run i hi hle h.2)]
    rw [show '0' :: c1 :: (run ++ tail) = ('0' :: c1 :: run) ++ tail from rfl, hpv]

/-- A token that begins with `0` and goes on with something else than `x`
or `X`. -/
theorem strtoul0_prefix_octal (p : Platform) (c1 : Char) (ds : CStr)
    (hx : ¬ (c1 = 'x' ∨ c1 = 'X')) :
    strtoul0 p ('0' :: c1 :: ds) = min (prefixValue ('0' :: c1 :: ds)) (ULONG_MAX p) := by
  rw [strtoul0_plain p '0' c1 ds (by decide) (by decide) (by decide),
    if_neg (fun h => hx h.2), if_pos rfl]
  obtain ⟨run, tail, hds, hrun, htail⟩ :=
    run_split (fun c => decide (digitVal c < 8)) (c1 :: ds)
  have hoct : isOctal run := fun c hc => octal_of_digitVal c (of_decide_eq_true (hrun c hc))
  have hzrun : ∀ c ∈ '0' :: run, digitVal c < 8 := by
    intro c hc
    rcases List.mem_cons.mp hc with h | h
    · rw [h]; decide
    · exact of_decide_eq_true (hrun c h)
  have hzoct : isOctal ('0' :: run) := fun c hc => octal_of_digitVal c (hzrun c hc)
  have hparse : parseDigits 8 ('0' :: (run ++ tail)) 0 = octVal run := by
    have := parseDigits_append_stop 8 ('0' :: run) tail hzrun
      (fun c hc => of_decide_eq_false (htail c hc)) 0
    rw [List.cons_append] at this
    rw [this, parseDigits_oct _ hzoct 0]
    rfl
  have hlit : litValue ('0' :: run) = some (octVal run) := by
    cases run with
    | nil => rfl
    | cons r rs =>
      have hr : r = c1 := by
        simp only [List.cons_append, List.cons.injEq] at hds
        exact hds.1.symm
      subst hr
      simp only [litValue, if_true, if_neg hx, if_pos hoct]
  have hlater : ∀ i, 0 < i → i ≤ tail.length →
      litValue (('0' :: run) ++ tail.take i) = none := by
    intro i hi hle
    obtain ⟨c, hc, hmem⟩ := head_mem_take tail i hi hle
    have hbad : ¬ isOctal (run ++ tail.take i) := by
      intro hall
      exact (of_decide_eq_false (htail c hc))
        (octal_facts (hall c (List.mem_append_right _ hmem))).2.1
    have hhead : ∃ l, run ++ tail.take i = c1 :: l := by
      cases run with
      | nil =>
        simp only [List.nil_append] at hds
        rw [← hds]
        cases i with
        | zero => omega
        | succ i => exact ⟨_, rfl⟩
      | cons r rs =>
        simp only [List.cons_append, List.cons.injEq] at hds
        exact ⟨_, by rw [List.cons_append, hds.1]⟩
    obtain ⟨l, hl⟩ := hhead
    rw [List.cons_append, hl]
    rw [hl] at hbad
    simp only [litValue, if_true, if_neg hx, if_neg hbad]
  have hpv : prefixValue (('0' :: run) ++ tail) = octVal run :=
    prefixValue_split ('0' :: run) tail _ hlit hlater
  rw [hds, hparse, show '0' :: (run ++ tail) = ('0' :: run) ++ tail from rfl, hpv]

/-- On a data token `strtoul0` yields the value of the token's longest prefix
that is a well-formed literal (0 when there is none), replaced by `ULONG_MAX`
when it exceeds it. -/
theorem strtoul0_prefixValue (p : Platform) (s : CStr) (hs : isDataToken s) :
    strtoul0 p s = min (prefixValue s) (ULONG_MAX p) := by
  cases s with
  | nil => cases p <;> rfl
  | cons c0 rest =>
    by_cases h0 : c0 = '0'
    · subst h0
      cases rest with
      | nil => cases p <;> rfl
      | cons c1 ds =>
        by_cases hx : c1 = 'x' ∨ c1 = 'X'
        · exact strtoul0_prefix_hex p c1 ds hx
        · exact strtoul0_prefix_octal p c1 ds hx
    · exact strtoul0_prefix_decimal p c0 rest
        (data_char_plain (hs c0 (List.mem_cons_self _ _))) h0

/-- C20, counterexample: the token `18446744073709551616f` is made of
characters of the alphabet only and is accepted; its longest prefix that is a
literal is `18446744073709551616`, the value 2^64, whose low 8 bits are 0;
the byte stored is 255, with a 64-bit `long` as with a 32-bit one. -/
theorem lenient_token_counterexample :
    isDataToken "18446744073709551616f".toList
      ∧ prefixValue "18446744073709551616f".toList = 18446744073709551616
      ∧ 18446744073709551616 % 256 = 0
      ∧ comparse .LP64 ["spincl".toList, "1".toList, "18446744073709551616f".toList]
          State.start
        = some (EXIT_SUCCESS, { State.start with len := 1, wbuf := 255 :: List.replicate 31 0 })
      ∧ comparse .ILP32 ["spincl".toList, "1".toList, "18446744073709551616f".toList]
          State.start
        = some (EXIT_SUCCESS,
            { State.start with len := 1, wbuf := 255 :: List.replicate 31 0 }) := by
  refine ⟨by unfold isDataToken; decide, by decide, by decide, rfl, rfl⟩

/-- C20, amended: among at most 32 tokens after a valid length, tokens made
only of the characters `0-9`, `a-f`, `A-F`, `x`, `X` are all accepted, well
formed or not, and each is stored in `wbuf`, at its own position, as the low
8 bits of the value `v` of its longest prefix that is a well-formed literal
(`v = 0` when no prefix is one) when `v` is at most `ULONG_MAX`, and as 255
when `v` is larger. -/
theorem lenient_token_bytes (p : Platform) (prog : CStr) (flags : List Flag) (ds : CStr)
    (toks : List CStr) (hv : ∀ f ∈ flags, f.valid) (hds : isDecimal ds)
    (hlen : decVal ds ≤ 32) (ht : ∀ t ∈ toks, isDataToken t) (hk : toks.length ≤ MAX_LEN) :
    ∃ s, comparse p (prog :: (flags.map Flag.render ++ ds :: toks)) State.start
          = some (EXIT_SUCCESS, s)
      ∧ ∀ (i : Nat) (t : CStr), toks[i]? = some t →
          s.wbuf[i]? = some (if prefixValue t ≤ ULONG_MAX p then prefixValue t % 256 else 255) := by
  refine ⟨_, comparse_ok p prog flags ds toks hv hds hlen ht hk, ?_⟩
  intro i t hi
  have hlt : i < toks.length := by
    rcases Nat.lt_or_ge i toks.length with h | h
    · exact h
    · rw [List.getElem?_eq_none h] at hi; cases hi
  have hmem : t ∈ toks := by
    obtain ⟨h1, h2⟩ := List.getElem?_eq_some_iff.mp hi
    rw [← h2]
    exact List.getElem_mem h1
  simp only
  rw [List.getElem?_append_left (by simpa using hlt), List.getElem?_map, hi, Option.map_some',
    strtoul0_prefixValue p t (ht t hmem), toUInt8_saturated]

/-- C20, amended, at `spincl 5 abc x 9f 08` and an empty fifth token: the
bytes are 0, 0, 9, 0, 0. -/
theorem lenient_token_bytes_witness :
    ∃ s, comparse .ILP32
          ["spincl".toList, "5".toList, "abc".toList, "x".toList, "9f".toList, "08".toList,
            "".toList] State.start = some (EXIT_SUCCESS, s)
      ∧ s.wbuf[0]? = some 0 ∧ s.wbuf[1]? = some 0 ∧ s.wbuf[2]? = some 9
      ∧ s.wbuf[3]? = some 0 ∧ s.wbuf[4]? = some 0 := by
  obtain ⟨s, h, hw⟩ := lenient_token_bytes .ILP32 "spincl".toList [] "5".toList
    ["abc".toList, "x".toList, "9f".toList, "08".toList, "".toList] (by simp)
    (by unfold isDecimal; decide) (by decide) (by unfold isDataToken; decide) (by decide)
  exact ⟨s, h, hw 0 _ rfl, hw 1 _ rfl, hw 2 _ rfl, hw 3 _ rfl, hw 4 _ rfl⟩

/-! ## Stores behind `wbuf` -/

/-- Where `xmitLoop` has a result, `xmitLoopFlat` has the same result. -/
theorem xmitLoopFlat_of_xmitLoop {p : Platform} {toks : List CStr} {i : Nat} {s : State}
    {r : Int × State} (h : xmitLoop p toks i s = some r) : xmitLoopFlat p toks i s = some r := by
  induction toks generalizing i s with
  | nil => simpa [xmitLoop, xmitLoopFlat] using h
  | cons t ts ih =>
    simp only [xmitLoop] at h
    simp only [xmitLoopFlat]
    split_ifs at h with h1 h2
    · rw [if_pos h1]; exact h
    · rw [if_neg h1]
      have hs : storeFlat i (toUInt8 (strtoul0 p t)) s
          = some { s with wbuf := s.wbuf.set i (toUInt8 (strtoul0 p t)) } := by
        simp only [storeFlat, if_pos h2]
      rw [hs]
      have := ih h
      exact this

theorem parseTailFlat_of_parseTail {p : Platform} {rest : List CStr} {s : State}
    {r : Int × State} (h : parseTail p rest s = some r) : parseTailFlat p rest s = some r := by
  unfold parseTail at h
  unfold parseTailFlat
  split_ifs at h with h1
  · rw [if_pos h1]; exact h
  · rw [if_neg h1]
    cases rest with
    | nil => cases h
    | cons a toks =>
      simp only at h ⊢
      split_ifs at h with h2 h3
      · rw [if_pos h2]; exact h
      · rw [if_neg h2, if_pos h3]; exact h
      · rw [if_neg h2, if_neg h3]
        have := xmitLoopFlat_of_xmitLoop h
        exact this

theorem flagLoopFlat_of_flagLoop {p : Platform} {rest : List CStr} {s : State}
    {r : Int × State} (h : flagLoop p rest s = some r) : flagLoopFlat p rest s = some r := by
  induction rest generalizing s with
  | nil =>
    rw [flagLoop] at h
    rw [flagLoopFlat]
    exact parseTailFlat_of_parseTail h
  | cons a rest ih =>
    rw [flagLoop] at h
    rw [flagLoopFlat]
    split_ifs at h with h1
    · rw [if_pos h1]
      cases hf : flagStep p a s with
      | next s1 =>
        rw [hf] at h
        have := ih h
        exact this
      | ret code s1 => rw [hf] at h; exact h
      | undefined => rw [hf] at h; cases h
    · rw [if_neg h1]
      exact parseTailFlat_of_parseTail h

/-- Where `comparse` has a result, `comparseFlat` has the same result: the two
differ only where a store goes past the end of `wbuf`. -/
theorem comparseFlat_of_comparse {p : Platform} {argv : List CStr} {s : State}
    {r : Int × State} (h : comparse p argv s = some r) : comparseFlat p argv s = some r := by
  unfold comparse at h
  unfold comparseFlat
  split_ifs at h with h1
  · rw [if_pos h1]; exact h
  · rw [if_neg h1]
    exact flagLoopFlat_of_flagLoop h

theorem xmitLoop_overflow_front (p : Platform) (good rest : List CStr) (i : Nat) (s : State)
    (hv : ∀ t ∈ good, isDataToken t) (hi : i ≤ MAX_LEN) (hb : MAX_LEN < i + good.length) :
    xmitLoop p (good ++ rest) i s = none := by
  induction good generalizing i s with
  | nil => simp only [List.length_nil] at hb; omega
  | cons t ts ih =>
    have ht : strspn t "0123456789abcdefABCDEFxX".toList = strlen t :=
      strspn_of_all (hv t (List.mem_cons_self _ _))
    have hts : ∀ u ∈ ts, isDataToken u := fun u hu => hv u (List.mem_cons_of_mem _ hu)
    simp only [List.cons_append, xmitLoop, ht, ne_eq, not_true_eq_false, if_false]
    by_cases h32 : i < MAX_LEN
    · rw [if_pos h32]
      exact ih (i + 1) _ hts h32 (by simp only [List.length_cons] at hb; omega)
    · rw [if_neg h32]

theorem xmitLoopFlat_overflow_front (p : Platform) (good rest : List CStr) (i : Nat) (s : State)
    (hv : ∀ t ∈ good, isDataToken t) (hi : i ≤ MAX_LEN + 10)
    (hb : MAX_LEN + 10 < i + good.length) :
    xmitLoopFlat p (good ++ rest) i s = none := by
  induction good generalizing i s with
  | nil => simp only [List.length_nil] at hb; omega
  | cons t ts ih =>
    have ht : strspn t "0123456789abcdefABCDEFxX".toList = strlen t :=
      strspn_of_all (hv t (List.mem_cons_self _ _))
    have hts : ∀ u ∈ ts, isDataToken u := fun u hu => hv u (List.mem_cons_of_mem _ hu)
    simp only [List.cons_append, xmitLoopFlat, ht, ne_eq, not_true_eq_false, if_false]
    cases hs : storeFlat i (toUInt8 (strtoul0 p t)) s with
    | none => rfl
    | some s1 =>
      simp only
      by_cases h42 : i < MAX_LEN + 10
      · exact ih (i + 1) s1 hts h42 (by simp only [List.length_cons] at hb; omega)
      · exfalso
        have h10 : ¬ i < MAX_LEN := by omega
        have h11 : ¬ i < MAX_LEN + 4 := by omega
        have h12 : ¬ i = MAX_LEN + 4 := by omega
        have h13 : ¬ i = MAX_LEN + 5 := by omega
        have h14 : ¬ i < MAX_LEN + 8 := by omega
        have h15 : ¬ i = MAX_LEN + 8 := by omega
        have h16 : ¬ i = MAX_LEN + 9 := by omega
        simp only [storeFlat, h10, h11, h12, h13, h14, h15, h16, if_false] at hs
        cases hs

theorem comparseFlat_flags_then (p : Platform) (prog : CStr) (flags : List Flag)
    (rest : List CStr) (hv : ∀ f ∈ flags, f.valid) (hne : flags ≠ [] ∨ rest ≠ []) :
    comparseFlat p (prog :: (flags.map Flag.render ++ rest)) State.start
      = flagLoopFlat p rest (flags.foldl Flag.apply State.start) := by
  have hlen2 : ¬ ((prog :: (flags.map Flag.render ++ rest)).length < 2) := by
    simp only [List.length_cons, List.length_append, List.length_map]
    rcases hne with h | h
    · have := List.length_pos.mpr h; omega
    · have := List.length_pos.mpr h; omega
  rw [comparseFlat, if_neg hlen2, List.drop_one, List.tail_cons]
  clear hlen2 hne
  generalize State.start = s
  induction flags generalizing s with
  | nil => rfl
  | cons f fs ih =>
    have hf := hv f (List.mem_cons_self _ _)
    simp only [List.map_cons, List.cons_append, flagLoopFlat, render_dash, if_true,
      flagStep_render p f hf, List.foldl_cons]
    exact ih (fun g hg => hv g (List.mem_cons_of_mem _ hg)) _

theorem parseTailFlat_len (p : Platform) (ds : CStr) (hds : isDecimal ds) (hlen : decVal ds ≤ 32)
    (toks : List CStr) (s : State) :
    parseTailFlat p (ds :: toks) s
      = xmitLoopFlat p toks 0 { s with len := decVal ds, wbuf := List.replicate MAX_LEN 0 } := by
  have h1 : strspn ds "0123456789".toList = strlen ds := strspn_of_all hds
  have h2 : toUInt32 (atoi p ds) = decVal ds := by
    rw [atoi_dec p ds hds (by omega), toUInt32_small _ (by omega)]
  have h3 : ¬ (decVal ds > MAX_LEN) := by simp [MAX_LEN]; omega
  simp only [parseTailFlat, h1, h2, h3, ne_eq, not_true_eq_false, if_false, false_and,
    reduceCtorEq]

/-- More than 32 data tokens in front of a token: `comparse` stores the
thirty-third at `wbuf[32]` before it comes to that token. -/
theorem token_not_reached (p : Platform) (prog : CStr) (flags : List Flag) (ds : CStr)
    (good rest : List CStr) (hv : ∀ f ∈ flags, f.valid) (hds : isDecimal ds)
    (hlen : decVal ds ≤ 32) (ht : ∀ t ∈ good, isDataToken t) (hk : MAX_LEN < good.length) :
    comparse p (prog :: (flags.map Flag.render ++ ds :: (good ++ rest))) State.start = none := by
  rw [comparse_flags_then p prog flags _ hv (Or.inr (by simp)), flagLoop,
    if_neg (decimal_no_dash ds hds), parseTail_len p ds hds hlen,
    xmitLoop_overflow_front p good rest 0 _ ht (by decide) (by omega)]

/-- More than 42 data tokens in front of a token: the stores go through the
ten bytes of the variables behind `wbuf` and then leave the last variable of
the program before `comparseFlat` comes to that token. -/
theorem token_not_reached_flat (p : Platform) (prog : CStr) (flags : List Flag) (ds : CStr)
    (good rest : List CStr) (hv : ∀ f ∈ flags, f.valid) (hds : isDecimal ds)
    (hlen : decVal ds ≤ 32) (ht : ∀ t ∈ good, isDataToken t) (hk : MAX_LEN + 10 < good.length) :
    comparseFlat p (prog :: (flags.map Flag.render ++ ds :: (good ++ rest))) State.start
      = none := by
  rw [comparseFlat_flags_then p prog flags _ hv (Or.inr (by simp)), flagLoopFlat,
    if_neg (decimal_no_dash ds hds), parseTailFlat_len p ds hds hlen,
    xmitLoopFlat_overflow_front p good rest 0 _ ht (by decide) (by omega)]

/-- The print loop with more iterations than `rbuf` has bytes reads outside
`rbuf`. -/
theorem printLoop_beyond (p : Platform) (n i : Nat) (s : State) (hi : i ≤ s.rbuf.length)
    (hn : s.rbuf.length < i + n) : printLoop p n i s = none := by
  induction n generalizing i s with
  | zero => omega
  | succ n ih =>
    rw [printLoop]
    cases hg : s.rbuf.get? i with
    | none => rfl
    | some b =>
      have hlt : i < s.rbuf.length := by
        rcases Nat.lt_or_ge i s.rbuf.length with h | h
        · exact h
        · rw [List.get?_eq_none.mpr h] at hg; cases hg
      simp only
      exact ih (i + 1) _ hlt (by simp only [State.print]; omega)

/-- C6, failing input: on `spincl 32` followed by thirty-three tokens `0xff`,
with the variables in the order of their declarations, the thirty-third store
goes to the low byte of `len`, which lies behind `wbuf`: `comparse` returns
success with `len = 255`, above `MAX_LEN`. With this `len` the transfer and
the print loop of `main` go beyond the 32 bytes of the buffers. -/
theorem len_overwritten_by_data :
    comparseFlat .ILP32 ("spincl".toList :: "32".toList :: List.replicate 33 "0xff".toList)
        State.start
        = some (EXIT_SUCCESS, { State.start with len := 255, wbuf := List.replicate 32 255 })
      ∧ comparseFlat .LP64 ("spincl".toList :: "32".toList :: List.replicate 33 "0xff".toList)
        State.start
        = some (EXIT_SUCCESS, { State.start with len := 255, wbuf := List.replicate 32 255 })
      ∧ ¬ (255 ≤ MAX_LEN)
      ∧ (∀ (w : World) (s : State), s.len = 255 → transfernb w s = none)
      ∧ (∀ (p : Platform) (s : State), s.len = 255 → s.rbuf.length = MAX_LEN →
          printLoop p s.len 0 s = none) := by
  refine ⟨rfl, rfl, by decide, ?_, ?_⟩
  · intro w s h
    simp [transfernb, h, MAX_LEN]
  · intro p s h hr
    exact printLoop_beyond p s.len 0 s (Nat.zero_le _) (by rw [hr, h]; decide)

/-- C19, failing input: on `spincl -ib -m1 1` followed by thirty-two tokens
`0` and the tokens `1 0 0 0 2 3`, with the variables in the order of their
declarations, the stores behind `wbuf` go to the four bytes of `len`, to
`init` and to `mode`: `comparse` returns success with `init = SPI_END` and
`mode = 3`, where the last options are `-ib` and `-m1`. With the thirty-two
tokens `0` alone the fields are `SPI_BEGIN` and 1. -/
theorem option_overwritten_by_data :
    comparseFlat .ILP32
        ("spincl".toList :: "-ib".toList :: "-m1".toList :: "1".toList ::
          (List.replicate 32 "0".toList
            ++ ["1".toList, "0".toList, "0".toList, "0".toList, "2".toList, "3".toList]))
        State.start
        = some (EXIT_SUCCESS,
            { State.start with len := 1, init := spi_init.SPI_END, mode := 3 })
      ∧ comparse .ILP32
        ("spincl".toList :: "-ib".toList :: "-m1".toList :: "1".toList ::
          List.replicate 32 "0".toList)
        State.start
        = some (EXIT_SUCCESS,
            { State.start with len := 1, init := spi_init.SPI_BEGIN, mode := 1 }) := by
  refine ⟨rfl, rfl⟩

/-- C12, failing input: on `spincl 0`, a hundred thousand tokens `1` and then
`zz`, the loop of `comparse` stores every token `1` before it looks at the
next token, the thirty-third past the end of `wbuf`; also where the variables
declared after `wbuf` take up the next ten stores, the loop leaves the
variables of the program at the forty-third token, long before it comes to
`zz`. With thirty-three tokens `1` the store goes to `len` and `zz` is then
reported; with thirty-two tokens every store is inside `wbuf` and `zz` is
reported. -/
theorem invalid_token_not_reached :
    comparse .ILP32
        ("spincl".toList :: "0".toList :: (List.replicate 100000 "1".toList ++ ["zz".toList]))
        State.start = none
      ∧ comparseFlat .ILP32
        ("spincl".toList :: "0".toList :: (List.replicate 100000 "1".toList ++ ["zz".toList]))
        State.start = none
      ∧ (comparseFlat .ILP32
          ("spincl".toList :: "0".toList :: (List.replicate 33 "1".toList ++ ["zz".toList]))
          State.start).map (fun r => (r.1, r.2.stderr))
        = some (EXIT_FAILURE, "Invalid data\n")
      ∧ (comparse .ILP32
          ("spincl".toList :: "0".toList :: (List.replicate 32 "1".toList ++ ["zz".toList]))
          State.start).map (fun r => (r.1, r.2.stderr))
        = some (EXIT_FAILURE, "Invalid data\n") := by
  have hgood : ∀ t ∈ List.replicate 100000 "1".toList, isDataToken t := by
    intro t ht
    rw [List.eq_of_mem_replicate ht]
    unfold isDataToken
    decide
  refine ⟨?_, ?_, rfl, rfl⟩
  · exact token_not_reached .ILP32 "spincl".toList [] "0".toList _ _ (by simp)
      (by unfold isDecimal; decide) (by decide) hgood (by rw [List.length_replicate]; decide)
  · exact token_not_reached_flat .ILP32 "spincl".toList [] "0".toList _ _ (by simp)
      (by unfold isDecimal; decide) (by decide) hgood (by rw [List.length_replicate]; decide)

end Spincl
